import Mathlib

/-!
# dirsize: cumulative directory sizes

A shallow embedding of `main.go` of Luzifer/dirsize and a verification of its
specification.

Modelling decisions.

* Go strings are Lean strings (valid UTF-8).  `len` is the length in bytes
  (`String.utf8ByteSize`); the padding done by package fmt counts characters
  (`String.length`); the byte-wise order on strings used by package sort is the
  lexicographic order on code points, which is what it amounts to on UTF-8.
* `int64` values are integers, every addition is followed by `wrapInt64`.
* The file system is a tree: what `ioutil.ReadDir` answers for a directory,
  together with the same information for each of its subdirectories.
* The global `dirSizes` is passed through the scanner explicitly.
* The order in which `range` enumerates a map is a parameter of `main`.
-/

namespace Dirsize

/-! ## Package path: `Clean` and `Join` -/

/-- State of the loop of `path.Clean`: the output buffer (the most recently
written byte first) and the index `dotdot` below which `..` must not remove
anything. -/
structure CleanState where
  out : List Char
  dotdot : Nat
deriving DecidableEq, Repr

/-- The elements of a path between its slashes (`a//b` has the elements `a`,
the empty one and `b`). -/
def splitSlash : List Char → List (List Char)
  | [] => [[]]
  | c :: rest =>
    if c = '/' then [] :: splitSlash rest
    else
      match splitSlash rest with
      | [] => [[c]]
      | e :: es => (c :: e) :: es

/-- The `..` case of `path.Clean` when the buffer can backtrack:
`out.w--; for out.w > dotdot && out.index(out.w) != '/' { out.w-- }`. -/
def backtrack (dotdot : Nat) : List Char → List Char
  | [] => []
  | c :: rest => if dotdot < rest.length ∧ c ≠ '/' then backtrack dotdot rest else rest

/-- One iteration of the loop of `path.Clean`, which consumes one path element:
an empty element and `.` are dropped, `..` removes the last element of the
buffer (or is kept in front of a path that is not rooted), and any other
element is copied to the buffer, after a slash when the buffer needs one. -/
def cleanStep (rooted : Bool) (s : CleanState) (e : List Char) : CleanState :=
  if e = [] ∨ e = ['.'] then s
  else if e = ['.', '.'] then
    if s.dotdot < s.out.length then ⟨backtrack s.dotdot s.out, s.dotdot⟩
    else if rooted then s
    else
      let out := if 0 < s.out.length then '/' :: s.out else s.out
      ⟨'.' :: '.' :: out, out.length + 2⟩
  else
    let out :=
      if (rooted && s.out.length != 1) || (!rooted && s.out.length != 0) then '/' :: s.out
      else s.out
    ⟨e.reverse ++ out, s.dotdot⟩

/-- Whether a path starts with a slash. -/
def isRooted (path : List Char) : Bool :=
  path.head? == some '/'

/-- State of `path.Clean` before its loop. -/
def cleanInit (rooted : Bool) : CleanState :=
  if rooted then ⟨['/'], 1⟩ else ⟨[], 0⟩

/-- State of `path.Clean` after its loop. -/
def cleanRun (path : List Char) : CleanState :=
  (splitSlash path).foldl (cleanStep (isRooted path)) (cleanInit (isRooted path))

/-- Go's `path.Clean`: the shortest path equivalent to the given one. -/
def Clean (path : String) : String :=
  if path = "" then "."
  else
    let s := cleanRun path.data
    if s.out.length = 0 then "." else String.mk s.out.reverse

/-- Go's `path.Join` for two elements: empty elements are ignored, the others
are joined with a slash and the result is cleaned. -/
def Join (dir name : String) : String :=
  if dir = "" then (if name = "" then "" else Clean name)
  else Clean (dir ++ "/" ++ name)

/-! ## Configuration, file system and size table -/

/-- The fields of `cfg` read by the scanner and by the report. -/
structure Config where
  Align : Bool
  IgnoreDotFiles : Bool
  IgnoreErrors : Bool
  Sum : Bool
deriving DecidableEq, Repr

/-- An error value returned by `ioutil.ReadDir`. -/
abbrev Error := String

mutual
/-- What `ioutil.ReadDir` answers for a directory: an error, or its entries. -/
inductive Dir where
  | unreadable (err : Error)
  | listed (content : Content)
/-- The entries of a directory, in the order of the listing.  Each entry has a
name and a size; an entry that is a directory comes with its own listing. -/
inductive Content where
  | nil
  | file (name : String) (size : Int) (rest : Content)
  | subdir (name : String) (size : Int) (d : Dir) (rest : Content)
end

/-- The global `dirSizes`, a `map[string]int64`, as an association list. -/
abbrev Table := List (String × Int)

/-- The keys of a map. -/
def mapKeys (t : Table) : List String :=
  t.map Prod.fst

/-- The lookup `v, ok := t[k]`. -/
def mapLookup (t : Table) (k : String) : Option Int :=
  match t with
  | [] => none
  | (k', v) :: rest => if k' = k then some v else mapLookup rest k

/-- The expression `t[k]`, which is the zero value for a missing key. -/
def mapIndex (t : Table) (k : String) : Int :=
  (mapLookup t k).getD 0

/-- The assignment `t[k] = v`. -/
def mapAssign (t : Table) (k : String) (v : Int) : Table :=
  match t with
  | [] => [(k, v)]
  | (k', v') :: rest => if k' = k then (k, v) :: rest else (k', v') :: mapAssign rest k v

/-- Addition of `int64` wraps around. -/
def wrapInt64 (x : Int) : Int :=
  (x + 2 ^ 63) % 2 ^ 64 - 2 ^ 63

/-! ## The scanner -/

/-- The condition `cfg.IgnoreDotFiles && c.Name()[0] == '.'`.  The index is
evaluated only when `IgnoreDotFiles` is set, and it is out of range, which ends
the program, for an empty name: that is the answer `none`. -/
def dotCheck (cfg : Config) (name : String) : Option Bool :=
  if cfg.IgnoreDotFiles then
    match name.data with
    | [] => none
    | b :: _ => some (b == '.')
  else some false

mutual
/-- The function `scanDirectory` of main.go.  The result is `none` when the
program ends with an index out of range, and otherwise the pair returned
together with `dirSizes` as the call leaves it. -/
def scanDirectory (cfg : Config) (dir : String) : Dir → Table → Option ((Int × Option Error) × Table)
  | .unreadable err, t =>
    if cfg.IgnoreErrors then some ((0, none), t) else some ((0, some err), t)
  | .listed content, t =>
    match scanLoop cfg dir content 0 t with
    | none => none
    | some (.error err, t1) => some ((0, some err), t1)
    | some (.ok sizeByte, t1) => some ((sizeByte, none), mapAssign t1 dir sizeByte)
/-- The loop `for _, c := range content` of `scanDirectory`, from the entries
still to be visited, the value of `sizeByte` and `dirSizes`.  It ends with
`.error err` when the function returns `0, err` from within the loop. -/
def scanLoop (cfg : Config) (dir : String) : Content → Int → Table → Option (Except Error Int × Table)
  | .nil, sizeByte, t => some (.ok sizeByte, t)
  | .file name size rest, sizeByte, t =>
    match dotCheck cfg name with
    | none => none
    | some true => scanLoop cfg dir rest sizeByte t
    | some false => scanLoop cfg dir rest (wrapInt64 (sizeByte + size)) t
  | .subdir name _ d rest, sizeByte, t =>
    match dotCheck cfg name with
    | none => none
    | some true => scanLoop cfg dir rest sizeByte t
    | some false =>
      match scanDirectory cfg (Join dir name) d t with
      | none => none
      | some ((_, some err), t1) => some (.error err, t1)
      | some ((ds, none), t1) => scanLoop cfg dir rest (wrapInt64 (sizeByte + ds)) t1
end

/-! ## The size formatter -/

/-- The conversion `float64(b)` of an `int64`: exact below `2^53`, and rounded
to 53 significant bits, ties to even, above.  The value is an integer. -/
def float64OfInt64 (b : Int) : Int :=
  let a := b.natAbs
  let s := ((List.range 11).filter (fun i => 2 ^ (53 + i) ≤ a)).length
  let m := a / 2 ^ s
  let r := a % 2 ^ s
  let m1 := if 2 ^ s < 2 * r ∨ (2 * r = 2 ^ s ∧ m % 2 = 1) then m + 1 else m
  (if b < 0 then -1 else 1) * ((m1 * 2 ^ s : Nat) : Int)

/-- The quotient `num / den` rounded to the nearest integer, ties to even. -/
def roundHalfEven (num den : Nat) : Nat :=
  let q := num / den
  let r := num % den
  if den < 2 * r ∨ (2 * r = den ∧ q % 2 = 1) then q + 1 else q

/-- A number of hundredths printed by the verb `%.2f`. -/
def formatFixed2 (neg : Bool) (h : Nat) : String :=
  (if neg then "-" else "") ++ toString (h / 100) ++ "." ++ toString (h / 10 % 10)
    ++ toString (h % 10)

/-- Padding of package fmt to a width, with spaces on the left. -/
def padLeft (s : String) (width : Nat) : String :=
  String.mk (List.replicate (width - s.length) ' ') ++ s

/-- Padding of package fmt to a width, with spaces on the right (flag `-`). -/
def padRight (s : String) (width : Nat) : String :=
  s ++ String.mk (List.replicate (width - s.length) ' ')

/-- The constant `BYTE`. -/
def BYTE : Nat := 1

/-- The constant `KILOBYTE`. -/
def KILOBYTE : Nat := 1024 * BYTE

/-- The constant `MEGABYTE`, which is `2^20`. -/
def MEGABYTE : Nat := 1024 * KILOBYTE

/-- The function `fmtMegs` of main.go: `float64(b)/MEGABYTE` printed with
`%.2f MB`, or with `%8.2f MB` when `cfg.Align` is set.  The division by a power
of two is exact, and `%.2f` rounds the exact quotient, ties to even. -/
def fmtMegs (cfg : Config) (b : Int) : String :=
  let num := formatFixed2 (decide (b < 0))
    (roundHalfEven ((float64OfInt64 b).natAbs * 100) MEGABYTE)
  (if cfg.Align then padLeft num 8 else num) ++ " MB"

/-! ## The report -/

/-- What a run of the program leaves behind: the writes to the output sink, in
order, and the message of `log.Fatalf` when the run ended there. -/
structure Output where
  out : List String
  fatal : Option String
deriving DecidableEq, Repr

/-- The start directory: `rconfig.Args()[1]` when there is one, else `.`. -/
def startDir (args : List String) : String :=
  if 1 < args.length then args.getD 1 "." else "."

/-- The comparison `sort.StringSlice.Less`, byte-wise on Go strings. -/
def stringLess (a b : String) : Prop :=
  a.data < b.data

instance stringLessDecidable (a b : String) : Decidable (stringLess a b) :=
  inferInstanceAs (Decidable (a.data < b.data))

/-- The call `sort.Sort(sort.Reverse(sort.StringSlice(paths)))`: the paths in
an order in which no path is less than a later one. -/
def sortReverse (paths : List String) : List String :=
  paths.insertionSort (fun a b => ¬ stringLess a b)

/-- The loop `for k := range dirSizes` of `main`: the slice `paths` and
`maxLen` after the keys have been enumerated in the given order. -/
def collectPaths (ranged : List String) : List String × Nat :=
  ranged.foldl
    (fun acc k => (acc.1 ++ [k], if acc.2 < k.utf8ByteSize then k.utf8ByteSize else acc.2))
    ([], 0)

/-- The line printed with the format `lenStr`, which is `%-Ns -- %s\n` for the
width `N`: the path padded on the right, the separator, the size, a newline.
(Package fmt gives up on widths of more than a million, which no path that
`ReadDir` accepts comes near.) -/
def lenStr (width : Nat) (p size : String) : String :=
  padRight p width ++ " -- " ++ size ++ "\n"

/-- The lines of the listing of `main`, from `dirSizes` and the order in which
`range` enumerates its keys. -/
def listing (cfg : Config) (dirSizes : Table) (ranged : List String) : List String :=
  let paths := sortReverse (collectPaths ranged).1
  let maxLen := if !cfg.Align then 0 else (collectPaths ranged).2
  paths.map (fun p => lenStr (maxLen + 1) p (fmtMegs cfg (mapIndex dirSizes p)))

/-- The function `main` of main.go, for the arguments `args`, the tree `fs`
found at the start directory and the enumeration order `rangeOrder` of maps.
The output file is the sink; opening it is not modelled. -/
def main (cfg : Config) (args : List String) (fs : Dir) (rangeOrder : Table → List String) :
    Option Output :=
  match scanDirectory cfg (startDir args) fs [] with
  | none => none
  | some ((_, some err), _) => some ⟨[], some ("Unable to scan directories: " ++ err)⟩
  | some ((_, none), dirSizes) =>
    if cfg.Sum then some ⟨[fmtMegs cfg (mapIndex dirSizes (startDir args)) ++ "\n"], none⟩
    else some ⟨listing cfg dirSizes (rangeOrder dirSizes), none⟩

/-! ## Notions used by the specification -/

/-- A path element that `path.Clean` copies to its buffer: not empty, not `.`,
not `..`, without a slash.  These are the names a directory listing can hold. -/
def RealElem (e : List Char) : Prop :=
  e ≠ [] ∧ e ≠ ['.'] ∧ e ≠ ['.', '.'] ∧ '/' ∉ e

instance realElemDecidable (e : List Char) : Decidable (RealElem e) :=
  inferInstanceAs (Decidable (e ≠ [] ∧ e ≠ ['.'] ∧ e ≠ ['.', '.'] ∧ '/' ∉ e))

/-- The states the loop of `path.Clean` can be in between two elements: the
initial one, one more `..` in front of a path that holds nothing else, one more
copied element. -/
inductive Normal (rooted : Bool) : CleanState → Prop
  | init : Normal rooted (cleanInit rooted)
  | dots {s : CleanState} : rooted = false → Normal rooted s → s.out.length ≤ s.dotdot →
      Normal rooted (cleanStep rooted s ['.', '.'])
  | elem {s : CleanState} {e : List Char} : Normal rooted s → RealElem e →
      Normal rooted (cleanStep rooted s e)

/-- The elements held by the buffer of `path.Clean`. -/
def stateElems (s : CleanState) : List (List Char) :=
  (splitSlash s.out.reverse).filter (fun e => e ≠ [])

/-- The elements of the cleaned form of a path. -/
def pathComponents (p : String) : List (List Char) :=
  stateElems (cleanRun p.data)

/-- Whether a name starts with a dot. -/
def dotName (name : String) : Bool :=
  name.data.head? == some '.'

/-- Whether the scanner passes over an entry of this name. -/
def skips (cfg : Config) (name : String) : Bool :=
  cfg.IgnoreDotFiles && dotName name

/-- The names of the entries of a directory. -/
def Content.names : Content → List String
  | .nil => []
  | .file name _ rest => name :: rest.names
  | .subdir name _ _ rest => name :: rest.names

mutual
/-- Every entry name of the tree is not empty. -/
def Dir.named : Dir → Bool
  | .unreadable _ => true
  | .listed c => c.named
/-- Every entry name is not empty, here and beneath. -/
def Content.named : Content → Bool
  | .nil => true
  | .file name _ rest => decide (name.data ≠ []) && rest.named
  | .subdir name _ d rest => decide (name.data ≠ []) && d.named && rest.named
end

mutual
/-- A directory tree as a file system holds it: every entry name is not empty,
has no slash, is neither `.` nor `..`, and differs from the names of the other
entries of its directory. -/
def Dir.wellFormed : Dir → Bool
  | .unreadable _ => true
  | .listed c => c.wellFormed
/-- The entries of a directory of a file system, here and beneath. -/
def Content.wellFormed : Content → Bool
  | .nil => true
  | .file name _ rest =>
    decide (RealElem name.data) && decide (name ∉ rest.names) && rest.wellFormed
  | .subdir name _ d rest =>
    decide (RealElem name.data) && decide (name ∉ rest.names) && d.wellFormed
      && rest.wellFormed
end

mutual
/-- Every listing of the tree succeeds. -/
def Dir.readable : Dir → Bool
  | .unreadable _ => false
  | .listed c => c.readable
/-- Every listing beneath these entries succeeds. -/
def Content.readable : Content → Bool
  | .nil => true
  | .file _ _ rest => rest.readable
  | .subdir _ _ d rest => d.readable && rest.readable
end

mutual
/-- The sizes of the entries that are not directories, at any depth. -/
def Dir.fileSizes : Dir → List Int
  | .unreadable _ => []
  | .listed c => c.fileSizes
/-- The sizes of the entries that are not directories, here and beneath. -/
def Content.fileSizes : Content → List Int
  | .nil => []
  | .file _ size rest => size :: rest.fileSizes
  | .subdir _ _ d rest => d.fileSizes ++ rest.fileSizes
end

mutual
/-- The exact sum of the sizes of the entries that are not directories and that
the scanner does not pass over, at any depth; a directory that cannot be listed
counts for nothing. -/
def Dir.seen (cfg : Config) : Dir → Int
  | .unreadable _ => 0
  | .listed c => c.seen cfg
/-- The same sum for the entries of a directory. -/
def Content.seen (cfg : Config) : Content → Int
  | .nil => 0
  | .file name size rest => (if skips cfg name then 0 else size) + rest.seen cfg
  | .subdir name _ d rest => (if skips cfg name then 0 else d.seen cfg) + rest.seen cfg
end

mutual
/-- The errors of the directories that cannot be listed among those the scanner
gets to, in the order of a depth-first walk. -/
def Dir.failures (cfg : Config) : Dir → List Error
  | .unreadable err => [err]
  | .listed c => c.failures cfg
/-- The same errors beneath the entries of a directory. -/
def Content.failures (cfg : Config) : Content → List Error
  | .nil => []
  | .file _ _ rest => rest.failures cfg
  | .subdir name _ d rest =>
    (if skips cfg name then [] else d.failures cfg) ++ rest.failures cfg
end

/-- A directory of a tree: its path, whether the scanner gets to it (it lies
beneath no entry that is passed over), and what `ReadDir` answers for it. -/
structure Visit where
  key : String
  reached : Bool
  dir : Dir

mutual
/-- Every directory of a tree, the root included, each one after the
directories beneath it. -/
def Dir.census (cfg : Config) (path : String) (reached : Bool) : Dir → List Visit
  | .unreadable err => [⟨path, reached, .unreadable err⟩]
  | .listed c => c.census cfg path reached ++ [⟨path, reached, .listed c⟩]
/-- Every directory beneath the directory that has these entries. -/
def Content.census (cfg : Config) (path : String) (reached : Bool) : Content → List Visit
  | .nil => []
  | .file _ _ rest => rest.census cfg path reached
  | .subdir name _ d rest =>
    d.census cfg (Join path name) (reached && !skips cfg name) ++ rest.census cfg path reached
end

/-- The entries of a directory that the scanner gets to and lists. -/
def Visit.listing (v : Visit) : Option Content :=
  match v.reached, v.dir with
  | true, .listed c => some c
  | _, _ => none

/-- The error of a directory that the scanner gets to and cannot list. -/
def Visit.failure (v : Visit) : Option Error :=
  match v.reached, v.dir with
  | true, .unreadable err => some err
  | _, _ => none

/-- The assignments a scan without error makes to `dirSizes`, in order: the
path of every directory it lists, with the sum of what it sees there. -/
def records (cfg : Config) (l : List Visit) : List (String × Int) :=
  l.filterMap (fun v => (v.listing).map (fun c => (v.key, wrapInt64 (c.seen cfg))))

/-- A sequence of assignments to a map. -/
def assignAll (t : Table) (l : List (String × Int)) : Table :=
  l.foldl (fun acc kv => mapAssign acc kv.1 kv.2) t

/-! ## Scenarios of the specification -/

/-- Scenario A: the root holds file `a` of 100 bytes and file `b` of 1,048,476
bytes. -/
def scenarioA : Dir :=
  .listed (.file "a" 100 (.file "b" 1048476 .nil))

/-- Scenario B: the root holds the subdirectory `sub` with one file of
2,097,152 bytes. -/
def scenarioB : Dir :=
  .listed (.subdir "sub" 4096 (.listed (.file "data" 2097152 .nil)) .nil)

/-- Scenario C: the root holds the directory `.hidden` with a file of 500 bytes
inside. -/
def scenarioC : Dir :=
  .listed (.subdir ".hidden" 4096 (.listed (.file "f" 500 .nil)) .nil)

/-- Scenario D: the root holds a file of 10 bytes, a subdirectory that cannot
be listed, and a subdirectory with a file of 32 bytes. -/
def scenarioD : Dir :=
  .listed (.file "a" 10 (.subdir "locked" 4096 (.unreadable "permission denied")
    (.subdir "open" 4096 (.listed (.file "f" 32 .nil)) .nil)))

/-- A configuration with every option off. -/
def plainConfig : Config :=
  ⟨false, false, false, false⟩

/-- The subdirectories among the entries of a directory: name and listing. -/
def Content.children : Content → List (String × Dir)
  | .nil => []
  | .file _ _ rest => rest.children
  | .subdir name _ d rest => (name, d) :: rest.children

/-- The total size of the entries of a directory that are not directories and
that the scanner does not pass over. -/
def Content.fileTotal (cfg : Config) : Content → Int
  | .nil => 0
  | .file name size rest => (if skips cfg name then 0 else size) + rest.fileTotal cfg
  | .subdir _ _ _ rest => rest.fileTotal cfg

/-- The size that the table `t` records under `key` for a directory that can be
listed; a directory that cannot be listed counts for nothing. -/
def Dir.recorded (t : Table) (key : String) : Dir → Int
  | .listed _ => mapIndex t key
  | .unreadable _ => 0

/-- The sum of the sizes that the table `t` records for the subdirectories of
the directory at `path` that the scanner does not pass over. -/
def Content.childTotal (cfg : Config) (t : Table) (path : String) : Content → Int
  | .nil => 0
  | .file _ _ rest => rest.childTotal cfg t path
  | .subdir name _ d rest =>
    (if skips cfg name then 0 else d.recorded t (Join path name))
      + rest.childTotal cfg t path

/-- The last element of a path. -/
def baseName (p : String) : List Char :=
  ((splitSlash p.data).getLast?).getD []

/-- Whether the last element of a path starts with a dot. -/
def dotBase (p : String) : Bool :=
  (baseName p).head? == some '.'

/-- Whether the path `k` lies beneath the path `p`. -/
def beneath (k p : String) : Bool :=
  k.data.take (p.data.length + 1) == p.data ++ ['/']

/-- A configuration in which only `IgnoreDotFiles` is set. -/
def dotConfig : Config :=
  ⟨false, true, false, false⟩

/-- A directory that holds one empty subdirectory `a`. -/
def oneSubdir : Dir :=
  .listed (.subdir "a" 4096 (.listed .nil) .nil)

/-- A configuration with `IgnoreDotFiles` set. -/
def withDots (cfg : Config) : Config :=
  ⟨cfg.Align, true, cfg.IgnoreErrors, cfg.Sum⟩

/-- A configuration with `IgnoreDotFiles` not set. -/
def withoutDots (cfg : Config) : Config :=
  ⟨cfg.Align, false, cfg.IgnoreErrors, cfg.Sum⟩

mutual
/-- The tree without its entries, files or directories, whose name begins with
a dot; what lies beneath a deleted directory goes with it. -/
def Dir.prune : Dir → Dir
  | .unreadable err => .unreadable err
  | .listed c => .listed c.prune
/-- The entries left when those whose name begins with a dot are deleted, here
and beneath. -/
def Content.prune : Content → Content
  | .nil => .nil
  | .file name size rest => if dotName name then rest.prune else .file name size rest.prune
  | .subdir name size d rest =>
    if dotName name then rest.prune else .subdir name size d.prune rest.prune
end

/-- A configuration in which only `IgnoreErrors` is set. -/
def lenientConfig : Config :=
  ⟨false, false, true, false⟩

/-- A configuration in which only `Sum` is set. -/
def sumConfig : Config :=
  ⟨false, false, false, true⟩

/-- A configuration in which only `Align` is set. -/
def alignConfig : Config :=
  ⟨true, false, false, false⟩

/-- The directories of a tree that the scanner gets to and lists, each one after
the directories beneath it. -/
def visited (cfg : Config) (root : String) (fs : Dir) : List Visit :=
  (fs.census cfg root true).filter (fun v => v.listing.isSome)

/-- The directories of a tree that a depth-first walk has finished with before
it comes to the first directory that the scanner gets to and cannot list. -/
def completed (cfg : Config) (root : String) (fs : Dir) : List Visit :=
  (fs.census cfg root true).takeWhile (fun v => v.failure.isNone)

/-- A root that holds a subdirectory with 5 bytes, then a subdirectory that
cannot be listed, then a subdirectory with 7 bytes. -/
def scenarioE : Dir :=
  .listed (.subdir "done" 4096 (.listed (.file "f" 5 .nil))
    (.subdir "locked" 4096 (.unreadable "permission denied")
      (.subdir "next" 4096 (.listed (.file "g" 7 .nil)) .nil)))

/-- A directory that holds the file `a` of 3 bytes and the file `.b` of 4
bytes. -/
def dotChild : Dir :=
  .listed (.file "a" 3 (.file ".b" 4 .nil))

/-- A directory that holds a file whose name is empty. -/
def namelessChild : Dir :=
  .listed (.file "" 1 .nil)

mutual
/-- Every entry name of the tree is not empty, has no slash, and is neither `.`
nor `..`. -/
def Dir.realNames : Dir → Bool
  | .unreadable _ => true
  | .listed c => c.realNames
/-- The same for the entries of a directory, here and beneath. -/
def Content.realNames : Content → Bool
  | .nil => true
  | .file name _ rest => decide (RealElem name.data) && rest.realNames
  | .subdir name _ d rest => decide (RealElem name.data) && d.realNames && rest.realNames
end

/-! # Verification -/

/-! ## Package path: a join appends one element -/

theorem splitSlash_ne_nil (l : List Char) : splitSlash l ≠ [] := by
  cases l with
  | nil => simp [splitSlash]
  | cons c rest =>
    simp only [splitSlash]
    split
    · simp
    · split <;> simp

theorem splitSlash_append_slash (a b : List Char) :
    splitSlash (a ++ '/' :: b) = splitSlash a ++ splitSlash b := by
  induction a with
  | nil => simp [splitSlash]
  | cons c rest ih =>
    simp only [List.cons_append, splitSlash, List.append_eq]
    split
    · simp [ih]
    · rw [ih]
      cases h : splitSlash rest with
      | nil => exact absurd h (splitSlash_ne_nil rest)
      | cons e es => simp

theorem splitSlash_noslash (e : List Char) (h : '/' ∉ e) : splitSlash e = [e] := by
  induction e with
  | nil => simp [splitSlash]
  | cons c rest ih =>
    simp only [List.mem_cons, not_or] at h
    simp only [splitSlash]
    rw [if_neg (fun hc => h.1 hc.symm), ih h.2]

theorem splitSlash_mem_noslash (l e : List Char) (h : e ∈ splitSlash l) : '/' ∉ e := by
  induction l generalizing e with
  | nil => simp [splitSlash] at h; simp [h]
  | cons c rest ih =>
    simp only [splitSlash] at h
    split at h
    · simp only [List.mem_cons] at h
      rcases h with h | h
      · simp [h]
      · exact ih e h
    · rename_i hc
      cases hs : splitSlash rest with
      | nil => exact absurd hs (splitSlash_ne_nil rest)
      | cons e1 es =>
        rw [hs] at h
        simp only [List.mem_cons] at h
        rcases h with h | h
        · subst h
          have := ih e1 (by rw [hs]; simp)
          simp only [List.mem_cons, not_or]
          exact ⟨fun hh => hc hh.symm, this⟩
        · exact ih e (by rw [hs]; simp [h])

theorem backtrack_sep (dd : Nat) (e out : List Char) (he : '/' ∉ e) (hd : dd ≤ out.length) :
    backtrack dd (e ++ '/' :: out) = out := by
  induction e with
  | nil => simp [backtrack]
  | cons c rest ih =>
    simp only [List.mem_cons, not_or] at he
    simp only [List.cons_append, backtrack, List.append_eq]
    rw [if_pos, ih he.2]
    refine ⟨?_, fun hc => he.1 hc.symm⟩
    simp; omega

theorem backtrack_nosep (dd : Nat) (e out : List Char) (he : '/' ∉ e) (hne : e ≠ [])
    (hd : out.length = dd) : backtrack dd (e ++ out) = out := by
  induction e with
  | nil => exact absurd rfl hne
  | cons c rest ih =>
    simp only [List.mem_cons, not_or] at he
    simp only [List.cons_append, backtrack, List.append_eq]
    by_cases hr : rest = []
    · subst hr
      simp [hd]
    · rw [if_pos, ih he.2 hr]
      refine ⟨?_, fun hc => he.1 hc.symm⟩
      have : 0 < rest.length := List.length_pos.mpr hr
      simp; omega

theorem cleanStep_skip (r : Bool) (s : CleanState) (e : List Char) (h : e = [] ∨ e = ['.']) :
    cleanStep r s e = s := by
  simp [cleanStep, h]

theorem cleanStep_real (r : Bool) (s : CleanState) (e : List Char) (h : RealElem e) :
    cleanStep r s e =
      ⟨e.reverse ++ (if (r && s.out.length != 1) || (!r && s.out.length != 0) then '/' :: s.out
        else s.out), s.dotdot⟩ := by
  obtain ⟨h1, h2, h3, _⟩ := h
  simp [cleanStep, h1, h2, h3]

theorem cleanStep_dots_back (r : Bool) (s : CleanState) (h : s.dotdot < s.out.length) :
    cleanStep r s ['.', '.'] = ⟨backtrack s.dotdot s.out, s.dotdot⟩ := by
  simp [cleanStep, h]

theorem cleanStep_dots_rooted (s : CleanState) (h : s.out.length ≤ s.dotdot) :
    cleanStep true s ['.', '.'] = s := by
  simp [cleanStep, Nat.not_lt.mpr h]

theorem cleanStep_dots_keep (s : CleanState) (h : s.out.length ≤ s.dotdot) :
    cleanStep false s ['.', '.'] =
      ⟨'.' :: '.' :: (if 0 < s.out.length then '/' :: s.out else s.out),
        (if 0 < s.out.length then '/' :: s.out else s.out).length + 2⟩ := by
  simp [cleanStep, Nat.not_lt.mpr h]

theorem realElem_dots_not : ¬ RealElem ['.', '.'] := fun h => h.2.2.1 rfl

theorem Normal.dotdot_le {r : Bool} {s : CleanState} (h : Normal r s) :
    s.dotdot ≤ s.out.length := by
  induction h with
  | init => cases r <;> simp [cleanInit]
  | @dots s0 hr _ hle ih =>
    subst hr
    rw [cleanStep_dots_keep _ hle]
    simp
  | @elem s0 e _ he ih =>
    rw [cleanStep_real _ _ _ he]
    simp only [List.length_append]
    split <;> simp <;> omega

theorem Normal.rooted_shape {s : CleanState} (h : Normal true s) :
    s.dotdot = 1 ∧ ∃ l, s.out = l ++ ['/'] := by
  induction h with
  | init => exact ⟨rfl, [], rfl⟩
  | @dots s0 hr _ _ _ => cases hr
  | @elem s0 e _ he ih =>
    obtain ⟨hd, l, hl⟩ := ih
    rw [cleanStep_real _ _ _ he]
    refine ⟨hd, ?_⟩
    simp only [hl]
    split
    · exact ⟨e.reverse ++ '/' :: l, by simp⟩
    · exact ⟨e.reverse ++ l, by simp⟩

theorem Normal.unrooted_shape {s : CleanState} (h : Normal false s) :
    ∀ l, s.out ≠ l ++ ['/'] := by
  induction h with
  | init => intro l; simp [cleanInit]
  | @dots s0 _ _ hle ih =>
    intro l
    rw [cleanStep_dots_keep _ hle]
    simp only
    by_cases h0 : 0 < s0.out.length
    · rw [if_pos h0]
      intro hc
      have h1 : ('.' :: '.' :: '/' :: s0.out).getLast? = (l ++ ['/']).getLast? := by rw [hc]
      obtain ⟨a, b, hab⟩ : ∃ a b, s0.out = a ++ [b] := by
        have hne : s0.out ≠ [] := List.length_pos.mp h0
        exact ⟨s0.out.dropLast, s0.out.getLast hne, (List.dropLast_append_getLast hne).symm⟩
      rw [hab] at h1
      have h2 : ('.' :: '.' :: '/' :: (a ++ [b])) = ('.' :: '.' :: '/' :: a) ++ [b] := by simp
      rw [h2, List.getLast?_append, List.getLast?_append] at h1
      simp at h1
      exact ih a (by rw [hab, h1])
    · rw [if_neg h0]
      have hnil : s0.out = [] := by
        cases hs : s0.out with
        | nil => rfl
        | cons x xs => rw [hs] at h0; simp at h0
      rw [hnil]
      intro hc
      have h1 : (['.', '.'] : List Char).getLast? = (l ++ ['/']).getLast? := by rw [hc]
      rw [List.getLast?_append] at h1
      simp at h1
  | @elem s0 e _ he ih =>
    intro l
    rw [cleanStep_real _ _ _ he]
    simp only [Bool.false_and, Bool.not_false, Bool.true_and, Bool.false_or]
    obtain ⟨hne, _, _, hsl⟩ := he
    by_cases h0 : s0.out.length = 0
    · have hnil : s0.out = [] := List.length_eq_zero.mp h0
      simp only [hnil, List.length_nil, bne_self_eq_false, Bool.false_eq_true, if_false,
        List.append_nil]
      intro hc
      have h1 : e.reverse.getLast? = (l ++ ['/']).getLast? := by rw [hc]
      rw [List.getLast?_append, List.getLast?_reverse] at h1
      simp at h1
      have : '/' ∈ e := by
        cases e with
        | nil => simp at h1
        | cons x xs => simp at h1; simp [h1]
      exact hsl this
    · have hb : (s0.out.length != 0) = true := by simp [h0]
      rw [if_pos hb]
      intro hc
      obtain ⟨a, b, hab⟩ : ∃ a b, s0.out = a ++ [b] := by
        have hne : s0.out ≠ [] := fun hh => h0 (by simp [hh])
        exact ⟨s0.out.dropLast, s0.out.getLast hne, (List.dropLast_append_getLast hne).symm⟩
      have h1 : (e.reverse ++ '/' :: s0.out).getLast? = (l ++ ['/']).getLast? := by rw [hc]
      rw [hab] at h1
      have h2 : (e.reverse ++ '/' :: (a ++ [b])) = (e.reverse ++ '/' :: a) ++ [b] := by simp
      rw [h2, List.getLast?_append, List.getLast?_append] at h1
      simp at h1
      exact ih a (by rw [hab, h1])

theorem Normal.nosep_length {r : Bool} {s : CleanState} (h : Normal r s)
    (hc : ¬ ((r && s.out.length != 1) || (!r && s.out.length != 0)) = true) :
    s = cleanInit r := by
  cases r with
  | true =>
    obtain ⟨hd, l, hl⟩ := h.rooted_shape
    have h1 : s.out.length = 1 := by simpa using hc
    have hl0 : l = [] := by
      rw [hl] at h1
      simp at h1
      exact h1
    cases s with
    | mk out dd =>
      simp only at hd hl
      subst hd
      rw [hl, hl0]
      rfl
  | false =>
    have h1 : s.out.length = 0 := by simpa using hc
    have h2 := h.dotdot_le
    cases s with
    | mk out dd =>
      simp only at h1 h2
      have : out = [] := List.length_eq_zero.mp h1
      subst this
      have : dd = 0 := by simpa using h2
      subst this
      rfl

theorem cleanInit_dotdot (r : Bool) : (cleanInit r).dotdot = (cleanInit r).out.length := by
  cases r <;> rfl

theorem Normal.backtrack {r : Bool} {s : CleanState} (h : Normal r s)
    (hlt : s.dotdot < s.out.length) : Normal r ⟨backtrack s.dotdot s.out, s.dotdot⟩ := by
  induction h with
  | init =>
    rw [cleanInit_dotdot] at hlt
    exact absurd hlt (Nat.lt_irrefl _)
  | @dots s0 hr _ hle _ =>
    subst hr
    rw [cleanStep_dots_keep _ hle] at hlt
    simp at hlt
  | @elem s0 e hn he _ =>
    have hsl : '/' ∉ e.reverse := by simpa using he.2.2.2
    have hne : e.reverse ≠ [] := by simpa using he.1
    rw [cleanStep_real _ _ _ he]
    simp only
    by_cases hc : ((r && s0.out.length != 1) || (!r && s0.out.length != 0)) = true
    · rw [if_pos hc, backtrack_sep _ _ _ hsl hn.dotdot_le]
      exact hn
    · rw [if_neg hc]
      have hs := hn.nosep_length hc
      rw [backtrack_nosep _ _ _ hsl hne (by rw [hs, cleanInit_dotdot])]
      exact hn

theorem Normal.step {r : Bool} {s : CleanState} (h : Normal r s) (e : List Char)
    (he : '/' ∉ e) : Normal r (cleanStep r s e) := by
  by_cases h1 : e = [] ∨ e = ['.']
  · rw [cleanStep_skip _ _ _ h1]
    exact h
  · by_cases h2 : e = ['.', '.']
    · subst h2
      by_cases hlt : s.dotdot < s.out.length
      · rw [cleanStep_dots_back _ _ hlt]
        exact h.backtrack hlt
      · cases r with
        | true =>
          rw [cleanStep_dots_rooted _ (Nat.not_lt.mp hlt)]
          exact h
        | false => exact Normal.dots rfl h (Nat.not_lt.mp hlt)
    · exact Normal.elem h ⟨fun hh => h1 (Or.inl hh), fun hh => h1 (Or.inr hh), h2, he⟩

theorem Normal.foldl {r : Bool} (es : List (List Char)) {s : CleanState} (h : Normal r s)
    (hes : ∀ e ∈ es, '/' ∉ e) : Normal r (es.foldl (cleanStep r) s) := by
  induction es generalizing s with
  | nil => exact h
  | cons e es ih =>
    simp only [List.foldl_cons]
    exact ih (h.step e (hes e (by simp))) (fun x hx => hes x (by simp [hx]))

theorem cleanRun_normal (p : List Char) : Normal (isRooted p) (cleanRun p) :=
  Normal.foldl _ Normal.init (fun e he => splitSlash_mem_noslash p e he)

theorem Normal.stable {r : Bool} {s : CleanState} (h : Normal r s) :
    (splitSlash s.out.reverse).foldl (cleanStep r) (cleanInit r) = s := by
  induction h with
  | init => cases r <;> simp [cleanInit, splitSlash, cleanStep]
  | @dots s0 hr hn hle ih =>
    subst hr
    rw [cleanStep_dots_keep _ hle]
    simp only
    by_cases h0 : 0 < s0.out.length
    · rw [if_pos h0]
      have : ('.' :: '.' :: '/' :: s0.out).reverse = s0.out.reverse ++ '/' :: ['.', '.'] := by
        simp
      rw [this, splitSlash_append_slash, List.foldl_append, ih,
        splitSlash_noslash _ (by decide)]
      simp only [List.foldl_cons, List.foldl_nil]
      rw [cleanStep_dots_keep _ hle, if_pos h0]
    · rw [if_neg h0]
      have hs : s0 = cleanInit false := hn.nosep_length (by simpa using h0)
      subst hs
      simp [cleanInit, splitSlash, cleanStep]
  | @elem s0 e hn he ih =>
    rw [cleanStep_real _ _ _ he]
    simp only
    by_cases hc : ((r && s0.out.length != 1) || (!r && s0.out.length != 0)) = true
    · rw [if_pos hc]
      have : (e.reverse ++ '/' :: s0.out).reverse = s0.out.reverse ++ '/' :: e := by simp
      rw [this, splitSlash_append_slash, List.foldl_append, ih,
        splitSlash_noslash _ he.2.2.2]
      simp only [List.foldl_cons, List.foldl_nil]
      rw [cleanStep_real _ _ _ he, if_pos hc]
    · rw [if_neg hc]
      have hs : s0 = cleanInit r := hn.nosep_length hc
      subst hs
      cases r with
      | true =>
        have : (e.reverse ++ (cleanInit true).out).reverse = [] ++ '/' :: e := by
          simp [cleanInit]
        rw [this, splitSlash_append_slash, splitSlash_noslash _ he.2.2.2]
        simp only [splitSlash, List.singleton_append, List.foldl_cons, List.foldl_nil]
        rw [cleanStep_skip _ _ _ (Or.inl rfl), cleanStep_real _ _ _ he, if_neg hc]
      | false =>
        have : (e.reverse ++ (cleanInit false).out).reverse = e := by simp [cleanInit]
        rw [this, splitSlash_noslash _ he.2.2.2]
        simp only [List.foldl_cons, List.foldl_nil]
        rw [cleanStep_real _ _ _ he, if_neg hc]

theorem stateElems_step {r : Bool} {s : CleanState} (h : Normal r s) {e : List Char}
    (he : RealElem e) : stateElems (cleanStep r s e) = stateElems s ++ [e] := by
  rw [cleanStep_real _ _ _ he]
  simp only [stateElems]
  by_cases hc : ((r && s.out.length != 1) || (!r && s.out.length != 0)) = true
  · rw [if_pos hc]
    have : (e.reverse ++ '/' :: s.out).reverse = s.out.reverse ++ '/' :: e := by simp
    rw [this, splitSlash_append_slash, splitSlash_noslash _ he.2.2.2, List.filter_append]
    simp [he.1]
  · rw [if_neg hc]
    have hs : s = cleanInit r := h.nosep_length hc
    subst hs
    cases r with
    | true =>
      have : (e.reverse ++ (cleanInit true).out).reverse = [] ++ '/' :: e := by
        simp [cleanInit]
      rw [this, splitSlash_append_slash, splitSlash_noslash _ he.2.2.2]
      simp [cleanInit, splitSlash, he.1]
    | false =>
      have : (e.reverse ++ (cleanInit false).out).reverse = e := by simp [cleanInit]
      rw [this, splitSlash_noslash _ he.2.2.2]
      simp [cleanInit, splitSlash, he.1]

theorem Normal.isRooted_out {r : Bool} {s : CleanState} (h : Normal r s) (hne : s.out ≠ []) :
    isRooted s.out.reverse = r := by
  cases r with
  | true =>
    obtain ⟨_, l, hl⟩ := h.rooted_shape
    rw [hl]
    simp [isRooted]
  | false =>
    have hs := h.unrooted_shape
    obtain ⟨a, b, hab⟩ : ∃ a b, s.out = a ++ [b] :=
      ⟨s.out.dropLast, s.out.getLast hne, (List.dropLast_append_getLast hne).symm⟩
    have hb : b ≠ '/' := fun hb => hs a (by rw [hab, hb])
    rw [hab]
    simp [isRooted, hb]

theorem string_eq_empty_iff (p : String) : p = "" ↔ p.data = [] := by
  constructor
  · intro h; subst h; rfl
  · intro h
    cases p with
    | mk d => simp only at h; subst h; rfl

theorem cleanStep_real_out_ne {r : Bool} {s : CleanState} {e : List Char} (he : RealElem e) :
    (cleanStep r s e).out ≠ [] := by
  rw [cleanStep_real _ _ _ he]
  simp [he.1]

theorem isRooted_append {a : List Char} (b : List Char) (h : a ≠ []) :
    isRooted (a ++ b) = isRooted a := by
  cases a with
  | nil => exact absurd rfl h
  | cons x xs => rfl

theorem isRooted_real {e : List Char} (he : RealElem e) : isRooted e = false := by
  obtain ⟨h1, _, _, h4⟩ := he
  cases e with
  | nil => exact absurd rfl h1
  | cons x xs =>
    simp only [List.mem_cons, not_or] at h4
    simp only [isRooted, List.head?_cons, beq_eq_false_iff_ne, ne_eq, Option.some.injEq]
    exact fun hx => h4.1 hx.symm

theorem Join_data (p n : String) (hn : RealElem n.data) :
    (Join p n).data = (cleanStep (isRooted p.data) (cleanRun p.data) n.data).out.reverse := by
  have hn0 : n ≠ "" := fun h => hn.1 ((string_eq_empty_iff n).mp h)
  have hout : ∀ r s, ¬ (cleanStep r s n.data).out.length = 0 := fun r s h =>
    cleanStep_real_out_ne hn (List.length_eq_zero.mp h)
  by_cases hp : p = ""
  · subst hp
    have h1 : cleanRun n.data = cleanStep false (cleanRun ("" : String).data) n.data := by
      simp only [cleanRun, isRooted_real hn, splitSlash_noslash _ hn.2.2.2]
      rfl
    simp only [Join, if_true, if_neg hn0, Clean]
    rw [h1]
    simp only [if_neg (hout _ _)]
    rfl
  · have hpd : p.data ≠ [] := fun h => hp ((string_eq_empty_iff p).mpr h)
    have hd : (p ++ "/" ++ n).data = p.data ++ '/' :: n.data := by
      simp [String.data_append]
    have hne : p ++ "/" ++ n ≠ "" := by
      intro h
      have := (string_eq_empty_iff _).mp h
      rw [hd] at this
      simp at this
    have h1 : cleanRun (p.data ++ '/' :: n.data) =
        cleanStep (isRooted p.data) (cleanRun p.data) n.data := by
      have hr : isRooted (p.data ++ '/' :: n.data) = isRooted p.data := isRooted_append _ hpd
      simp only [cleanRun, hr, splitSlash_append_slash, splitSlash_noslash _ hn.2.2.2,
        List.foldl_append, List.foldl_cons, List.foldl_nil]
    simp only [Join, if_neg hp, Clean, if_neg hne, hd]
    rw [h1]
    simp only [if_neg (hout _ _)]

theorem Normal.cleanRun_out {r : Bool} {s : CleanState} (h : Normal r s) (hne : s.out ≠ []) :
    cleanRun s.out.reverse = s := by
  have hr := h.isRooted_out hne
  have hs := h.stable
  generalize s.out.reverse = x at hr hs
  subst hr
  exact hs

theorem cleanRun_Join (p n : String) (hn : RealElem n.data) :
    cleanRun (Join p n).data = cleanStep (isRooted p.data) (cleanRun p.data) n.data := by
  rw [Join_data p n hn]
  exact (Normal.elem (cleanRun_normal _) hn).cleanRun_out (cleanStep_real_out_ne hn)

theorem pathComponents_Join (p n : String) (hn : RealElem n.data) :
    pathComponents (Join p n) = pathComponents p ++ [n.data] := by
  unfold pathComponents
  rw [cleanRun_Join p n hn]
  exact stateElems_step (cleanRun_normal _) hn

/-! ## Arithmetic of `int64` -/

theorem wrapInt64_of_range (x : Int) (h1 : -2 ^ 63 ≤ x) (h2 : x < 2 ^ 63) : wrapInt64 x = x := by
  unfold wrapInt64
  omega

theorem wrapInt64_range (x : Int) : -2 ^ 63 ≤ wrapInt64 x ∧ wrapInt64 x < 2 ^ 63 := by
  unfold wrapInt64
  omega

theorem wrapInt64_idem (x : Int) : wrapInt64 (wrapInt64 x) = wrapInt64 x := by
  unfold wrapInt64
  omega

theorem wrapInt64_add_left (a b : Int) : wrapInt64 (wrapInt64 a + b) = wrapInt64 (a + b) := by
  unfold wrapInt64
  omega

theorem wrapInt64_add_right (a b : Int) : wrapInt64 (a + wrapInt64 b) = wrapInt64 (a + b) := by
  unfold wrapInt64
  omega

theorem wrapInt64_add_mid (a b c : Int) :
    wrapInt64 (wrapInt64 (a + wrapInt64 b) + c) = wrapInt64 (a + (b + c)) := by
  unfold wrapInt64
  omega

theorem wrapInt64_zero : wrapInt64 0 = 0 := by
  unfold wrapInt64
  omega

/-! ## The map -/

theorem mapLookup_mapAssign (t : Table) (k : String) (v : Int) (k1 : String) :
    mapLookup (mapAssign t k v) k1 = if k = k1 then some v else mapLookup t k1 := by
  induction t with
  | nil => simp [mapAssign, mapLookup]
  | cons p rest ih =>
    obtain ⟨k2, v2⟩ := p
    simp only [mapAssign]
    by_cases h : k2 = k
    · subst h
      simp only [if_true, mapLookup]
      split <;> rfl
    · simp only [if_neg h, mapLookup, ih]
      by_cases h2 : k2 = k1
      · subst h2
        simp [Ne.symm h]
      · simp [h2]

theorem mapKeys_mapAssign (t : Table) (k : String) (v : Int) :
    mapKeys (mapAssign t k v) = if k ∈ mapKeys t then mapKeys t else mapKeys t ++ [k] := by
  induction t with
  | nil => simp [mapAssign, mapKeys]
  | cons p rest ih =>
    obtain ⟨k2, v2⟩ := p
    simp only [mapAssign]
    by_cases h : k2 = k
    · subst h
      simp [mapKeys]
    · simp only [if_neg h]
      simp only [mapKeys, List.map_cons, List.mem_cons] at ih ⊢
      rw [ih]
      by_cases h2 : k ∈ List.map Prod.fst rest
      · simp [h2]
      · simp [h2, Ne.symm h]

theorem assignAll_nil (t : Table) : assignAll t [] = t := rfl

theorem assignAll_append (t : Table) (a b : List (String × Int)) :
    assignAll t (a ++ b) = assignAll (assignAll t a) b := by
  simp [assignAll, List.foldl_append]

theorem assignAll_single (t : Table) (k : String) (v : Int) :
    assignAll t [(k, v)] = mapAssign t k v := rfl

theorem mapLookup_assignAll_not_mem (l : List (String × Int)) (t : Table) (k : String)
    (h : k ∉ l.map Prod.fst) : mapLookup (assignAll t l) k = mapLookup t k := by
  induction l generalizing t with
  | nil => rfl
  | cons p rest ih =>
    simp only [List.map_cons, List.mem_cons, not_or] at h
    have : assignAll t (p :: rest) = assignAll (mapAssign t p.1 p.2) rest := rfl
    rw [this, ih _ h.2, mapLookup_mapAssign, if_neg (Ne.symm h.1)]

theorem mapLookup_assignAll_mem (l : List (String × Int)) (t : Table) (k : String) (v : Int)
    (hnd : (l.map Prod.fst).Nodup) (h : (k, v) ∈ l) : mapLookup (assignAll t l) k = some v := by
  induction l generalizing t with
  | nil => simp at h
  | cons p rest ih =>
    have hstep : assignAll t (p :: rest) = assignAll (mapAssign t p.1 p.2) rest := rfl
    simp only [List.map_cons, List.nodup_cons] at hnd
    simp only [List.mem_cons] at h
    rcases h with h | h
    · subst h
      rw [hstep, mapLookup_assignAll_not_mem _ _ _ hnd.1, mapLookup_mapAssign, if_pos rfl]
    · rw [hstep]
      exact ih _ hnd.2 h

theorem mapKeys_assignAll (l : List (String × Int)) (t : Table)
    (hnd : (mapKeys t ++ l.map Prod.fst).Nodup) :
    mapKeys (assignAll t l) = mapKeys t ++ l.map Prod.fst := by
  induction l generalizing t with
  | nil => simp [assignAll]
  | cons p rest ih =>
    have hstep : assignAll t (p :: rest) = assignAll (mapAssign t p.1 p.2) rest := rfl
    have hp : p.1 ∉ mapKeys t := by
      intro hm
      have := List.nodup_append.mp hnd
      exact this.2.2 hm (by simp)
    have hk : mapKeys (mapAssign t p.1 p.2) = mapKeys t ++ [p.1] := by
      rw [mapKeys_mapAssign, if_neg hp]
    rw [hstep, ih, hk]
    · simp
    · rw [hk]
      simpa using hnd

/-! ## The scanner on a tree -/

theorem dotCheck_eq (cfg : Config) (name : String)
    (h : cfg.IgnoreDotFiles = true → name.data ≠ []) : dotCheck cfg name = some (skips cfg name) := by
  unfold dotCheck skips dotName
  cases hc : cfg.IgnoreDotFiles with
  | false => simp
  | true =>
    have := h hc
    cases hd : name.data with
    | nil => exact absurd hd this
    | cons b rest => simp

theorem records_append (cfg : Config) (a b : List Visit) :
    records cfg (a ++ b) = records cfg a ++ records cfg b := by
  simp [records, List.filterMap_append]

mutual
theorem dir_census_unreached (cfg : Config) :
    ∀ (d : Dir) (path : String), ∀ v ∈ d.census cfg path false, v.reached = false
  | .unreadable err, path => by
    intro v hv
    simp only [Dir.census, List.mem_singleton] at hv
    rw [hv]
  | .listed c, path => by
    intro v hv
    simp only [Dir.census, List.mem_append, List.mem_singleton] at hv
    rcases hv with hv | hv
    · exact content_census_unreached cfg c path v hv
    · rw [hv]
theorem content_census_unreached (cfg : Config) :
    ∀ (c : Content) (path : String), ∀ v ∈ c.census cfg path false, v.reached = false
  | .nil, path => by
    intro v hv
    simp [Content.census] at hv
  | .file _ _ rest, path => by
    intro v hv
    simp only [Content.census] at hv
    exact content_census_unreached cfg rest path v hv
  | .subdir name _ d rest, path => by
    intro v hv
    simp only [Content.census, List.mem_append, Bool.false_and] at hv
    rcases hv with hv | hv
    · exact dir_census_unreached cfg d _ v hv
    · exact content_census_unreached cfg rest path v hv
end

theorem records_unreached (cfg : Config) (l : List Visit) (h : ∀ v ∈ l, v.reached = false) :
    records cfg l = [] := by
  unfold records
  rw [List.filterMap_eq_nil_iff]
  intro v hv
  have := h v hv
  simp [Visit.listing, this]

theorem failures_nil_of_append {a b : List Error} {p : Prop} (h : p ∨ a ++ b = []) :
    (p ∨ a = []) ∧ (p ∨ b = []) := by
  rcases h with h | h
  · exact ⟨Or.inl h, Or.inl h⟩
  · simp only [List.append_eq_nil] at h
    exact ⟨Or.inr h.1, Or.inr h.2⟩

mutual
theorem scanDirectory_ok (cfg : Config) :
    ∀ (d : Dir) (path : String) (t : Table),
      (cfg.IgnoreDotFiles = true → d.named = true) →
      (cfg.IgnoreErrors = true ∨ d.failures cfg = []) →
      scanDirectory cfg path d t =
        some ((wrapInt64 (d.seen cfg), none), assignAll t (records cfg (d.census cfg path true)))
  | .unreadable err, path, t => by
    intro _ hf
    have hi : cfg.IgnoreErrors = true := by
      rcases hf with hf | hf
      · exact hf
      · simp [Dir.failures] at hf
    simp [scanDirectory, hi, Dir.seen, wrapInt64_zero, Dir.census, records, Visit.listing,
      assignAll]
  | .listed c, path, t => by
    intro hn hf
    have h := scanLoop_ok cfg c path 0 t (by simpa [Dir.named] using hn)
      (by simpa [Dir.failures] using hf) wrapInt64_zero
    simp only [scanDirectory, h, Dir.seen, Dir.census, records_append, assignAll_append,
      zero_add]
    simp [records, Visit.listing, assignAll]
theorem scanLoop_ok (cfg : Config) :
    ∀ (c : Content) (path : String) (acc : Int) (t : Table),
      (cfg.IgnoreDotFiles = true → c.named = true) →
      (cfg.IgnoreErrors = true ∨ c.failures cfg = []) →
      wrapInt64 acc = acc →
      scanLoop cfg path c acc t =
        some (.ok (wrapInt64 (acc + c.seen cfg)),
          assignAll t (records cfg (c.census cfg path true)))
  | .nil, path, acc, t => by
    intro _ _ hacc
    simp [scanLoop, Content.seen, Content.census, records, assignAll, hacc]
  | .file name size rest, path, acc, t => by
    intro hn hf hacc
    have hname : cfg.IgnoreDotFiles = true → name.data ≠ [] := fun hc => by
      have := hn hc
      simp only [Content.named, Bool.and_eq_true, decide_eq_true_eq] at this
      exact this.1
    have hn1 : cfg.IgnoreDotFiles = true → rest.named = true := fun hc => by
      have := hn hc
      simp only [Content.named, Bool.and_eq_true, decide_eq_true_eq] at this
      exact this.2
    have hf1 : cfg.IgnoreErrors = true ∨ rest.failures cfg = [] := by
      simpa [Content.failures] using hf
    simp only [scanLoop, dotCheck_eq cfg name hname, Content.seen, Content.census]
    cases hs : skips cfg name with
    | true =>
      simp only [if_true, zero_add]
      exact scanLoop_ok cfg rest path acc t hn1 hf1 hacc
    | false =>
      simp only [Bool.false_eq_true, if_false]
      rw [scanLoop_ok cfg rest path _ t hn1 hf1 (wrapInt64_idem _), wrapInt64_add_left,
        add_assoc]
  | .subdir name size d rest, path, acc, t => by
    intro hn hf hacc
    have hname : cfg.IgnoreDotFiles = true → name.data ≠ [] := fun hc => by
      have := hn hc
      simp only [Content.named, Bool.and_eq_true, decide_eq_true_eq] at this
      exact this.1.1
    have hn1 : cfg.IgnoreDotFiles = true → rest.named = true := fun hc => by
      have := hn hc
      simp only [Content.named, Bool.and_eq_true, decide_eq_true_eq] at this
      exact this.2
    have hn2 : cfg.IgnoreDotFiles = true → d.named = true := fun hc => by
      have := hn hc
      simp only [Content.named, Bool.and_eq_true, decide_eq_true_eq] at this
      exact this.1.2
    simp only [scanLoop, dotCheck_eq cfg name hname, Content.seen, Content.census,
      records_append, assignAll_append]
    cases hs : skips cfg name with
    | true =>
      have hf1 : cfg.IgnoreErrors = true ∨ rest.failures cfg = [] := by
        simpa [Content.failures, hs] using hf
      simp only [if_true, zero_add, Bool.not_true, Bool.and_false]
      rw [records_unreached cfg _ (dir_census_unreached cfg d _), assignAll_nil]
      exact scanLoop_ok cfg rest path acc t hn1 hf1 hacc
    | false =>
      have hf0 : cfg.IgnoreErrors = true ∨
          (d.failures cfg ++ rest.failures cfg = []) := by
        simpa [Content.failures, hs] using hf
      obtain ⟨hf2, hf1⟩ := failures_nil_of_append hf0
      simp only [Bool.false_eq_true, if_false, Bool.not_false, Bool.and_true]
      rw [scanDirectory_ok cfg d (Join path name) t hn2 hf2]
      simp only
      rw [scanLoop_ok cfg rest path _ _ hn1 hf1 (wrapInt64_idem _), wrapInt64_add_mid]
end

theorem string_data_inj {a b : String} (h : a.data = b.data) : a = b := by
  cases a; cases b; simp only at h; subst h; rfl

theorem Content.wellFormed_file {name : String} {size : Int} {rest : Content}
    (h : (Content.file name size rest).wellFormed = true) :
    RealElem name.data ∧ name ∉ rest.names ∧ rest.wellFormed = true := by
  simpa [Content.wellFormed, and_assoc] using h

theorem Content.wellFormed_subdir {name : String} {size : Int} {d : Dir} {rest : Content}
    (h : (Content.subdir name size d rest).wellFormed = true) :
    RealElem name.data ∧ name ∉ rest.names ∧ d.wellFormed = true ∧ rest.wellFormed = true := by
  simpa [Content.wellFormed, and_assoc] using h

mutual
theorem dir_census_components (cfg : Config) :
    ∀ (d : Dir) (path : String) (r : Bool), d.wellFormed = true →
      ∀ v ∈ d.census cfg path r, ∃ rest, pathComponents v.key = pathComponents path ++ rest
  | .unreadable err, path, r => by
    intro _ v hv
    simp only [Dir.census, List.mem_singleton] at hv
    exact ⟨[], by rw [hv]; simp⟩
  | .listed c, path, r => by
    intro hw v hv
    simp only [Dir.census, List.mem_append, List.mem_singleton] at hv
    rcases hv with hv | hv
    · obtain ⟨n, rest, _, h⟩ := content_census_components cfg c path r
        (by simpa [Dir.wellFormed] using hw) v hv
      exact ⟨n.data :: rest, h⟩
    · exact ⟨[], by rw [hv]; simp⟩
theorem content_census_components (cfg : Config) :
    ∀ (c : Content) (path : String) (r : Bool), c.wellFormed = true →
      ∀ v ∈ c.census cfg path r,
        ∃ n rest, n ∈ c.names ∧ pathComponents v.key = pathComponents path ++ n.data :: rest
  | .nil, path, r => by
    intro _ v hv
    simp [Content.census] at hv
  | .file name _ rest, path, r => by
    intro hw v hv
    simp only [Content.census] at hv
    obtain ⟨n, l, hn, h⟩ := content_census_components cfg rest path r
      (Content.wellFormed_file hw).2.2 v hv
    exact ⟨n, l, by simp [Content.names, hn], h⟩
  | .subdir name _ d rest, path, r => by
    intro hw v hv
    obtain ⟨hreal, _, hwd, hwr⟩ := Content.wellFormed_subdir hw
    simp only [Content.census, List.mem_append] at hv
    rcases hv with hv | hv
    · obtain ⟨l, h⟩ := dir_census_components cfg d _ _ hwd v hv
      refine ⟨name, l, by simp [Content.names], ?_⟩
      rw [h, pathComponents_Join path name hreal]
      simp
    · obtain ⟨n, l, hn, h⟩ := content_census_components cfg rest path r hwr v hv
      exact ⟨n, l, by simp [Content.names, hn], h⟩
end

mutual
theorem dir_census_nodup (cfg : Config) :
    ∀ (d : Dir) (path : String) (r : Bool), d.wellFormed = true →
      ((d.census cfg path r).map Visit.key).Nodup
  | .unreadable err, path, r => by
    intro _
    simp [Dir.census]
  | .listed c, path, r => by
    intro hw
    have hwc : c.wellFormed = true := by simpa [Dir.wellFormed] using hw
    simp only [Dir.census, List.map_append, List.map_cons, List.map_nil]
    rw [List.nodup_append]
    refine ⟨content_census_nodup cfg c path r hwc, by simp, ?_⟩
    intro k hk hk2
    simp only [List.mem_singleton] at hk2
    obtain ⟨v, hv, hvk⟩ := List.mem_map.mp hk
    obtain ⟨n, rest, _, h⟩ := content_census_components cfg c path r hwc v hv
    rw [hvk, hk2] at h
    have := congrArg List.length h
    simp at this
theorem content_census_nodup (cfg : Config) :
    ∀ (c : Content) (path : String) (r : Bool), c.wellFormed = true →
      ((c.census cfg path r).map Visit.key).Nodup
  | .nil, path, r => by
    intro _
    simp [Content.census]
  | .file name _ rest, path, r => by
    intro hw
    simp only [Content.census]
    exact content_census_nodup cfg rest path r (Content.wellFormed_file hw).2.2
  | .subdir name _ d rest, path, r => by
    intro hw
    obtain ⟨hreal, hnot, hwd, hwr⟩ := Content.wellFormed_subdir hw
    simp only [Content.census, List.map_append]
    rw [List.nodup_append]
    refine ⟨dir_census_nodup cfg d _ _ hwd, content_census_nodup cfg rest path r hwr, ?_⟩
    intro k hk hk2
    obtain ⟨v, hv, hvk⟩ := List.mem_map.mp hk
    obtain ⟨w, hw2, hwk⟩ := List.mem_map.mp hk2
    obtain ⟨l, h1⟩ := dir_census_components cfg d _ _ hwd v hv
    obtain ⟨n, l2, hn, h2⟩ := content_census_components cfg rest path r hwr w hw2
    rw [hvk, pathComponents_Join path name hreal] at h1
    rw [hwk, h1] at h2
    simp only [List.append_assoc, List.singleton_append, List.append_cancel_left_eq,
      List.cons.injEq] at h2
    exact hnot (by rw [string_data_inj h2.1]; exact hn)
end

theorem records_mem (cfg : Config) (l : List Visit) (k : String) (x : Int) :
    (k, x) ∈ records cfg l ↔
      ∃ v ∈ l, ∃ c, v.listing = some c ∧ v.key = k ∧ wrapInt64 (c.seen cfg) = x := by
  simp only [records, List.mem_filterMap, Option.map_eq_some', Prod.mk.injEq]

theorem records_keys_sublist (cfg : Config) (l : List Visit) :
    ((records cfg l).map Prod.fst).Sublist (l.map Visit.key) := by
  induction l with
  | nil => simp [records]
  | cons v rest ih =>
    have h : records cfg (v :: rest) = records cfg [v] ++ records cfg rest :=
      records_append cfg [v] rest
    rw [h]
    cases hl : v.listing with
    | none =>
      simp only [records, List.filterMap_cons, hl, Option.map_none', List.filterMap_nil,
        List.nil_append, List.map_cons]
      exact List.Sublist.cons _ ih
    | some c =>
      simp only [records, List.filterMap_cons, hl, Option.map_some', List.filterMap_nil,
        List.singleton_append, List.map_cons]
      exact List.Sublist.cons₂ _ ih

theorem records_keys_nodup (cfg : Config) (l : List Visit) (h : (l.map Visit.key).Nodup) :
    ((records cfg l).map Prod.fst).Nodup :=
  (records_keys_sublist cfg l).nodup h

mutual
theorem dir_failures_of_readable (cfg : Config) :
    ∀ d : Dir, d.readable = true → d.failures cfg = []
  | .unreadable _ => by simp [Dir.readable]
  | .listed c => by
    intro h
    simp only [Dir.failures]
    exact content_failures_of_readable cfg c (by simpa [Dir.readable] using h)
theorem content_failures_of_readable (cfg : Config) :
    ∀ c : Content, c.readable = true → c.failures cfg = []
  | .nil => by simp [Content.failures]
  | .file _ _ rest => by
    intro h
    simp only [Content.failures]
    exact content_failures_of_readable cfg rest (by simpa [Content.readable] using h)
  | .subdir name _ d rest => by
    intro h
    simp only [Content.readable, Bool.and_eq_true] at h
    simp only [Content.failures, dir_failures_of_readable cfg d h.1,
      content_failures_of_readable cfg rest h.2]
    simp
end

theorem skips_false (cfg : Config) (h : cfg.IgnoreDotFiles = false) (name : String) :
    skips cfg name = false := by
  simp [skips, h]

mutual
theorem dir_seen_eq_sum (cfg : Config) (h : cfg.IgnoreDotFiles = false) :
    ∀ d : Dir, d.seen cfg = d.fileSizes.sum
  | .unreadable _ => by simp [Dir.seen, Dir.fileSizes]
  | .listed c => by
    simp only [Dir.seen, Dir.fileSizes]
    exact content_seen_eq_sum cfg h c
theorem content_seen_eq_sum (cfg : Config) (h : cfg.IgnoreDotFiles = false) :
    ∀ c : Content, c.seen cfg = c.fileSizes.sum
  | .nil => by simp [Content.seen, Content.fileSizes]
  | .file name size rest => by
    simp [Content.seen, Content.fileSizes, skips_false cfg h, content_seen_eq_sum cfg h rest]
  | .subdir name _ d rest => by
    simp [Content.seen, Content.fileSizes, skips_false cfg h, content_seen_eq_sum cfg h rest,
      dir_seen_eq_sum cfg h d]
end

mutual
theorem dir_census_all (cfg : Config) (h : cfg.IgnoreDotFiles = false) :
    ∀ (d : Dir) (path : String) (r : Bool), d.readable = true →
      ∀ v ∈ d.census cfg path r,
        v.reached = r ∧ v.dir.readable = true ∧ v.dir.fileSizes.Sublist d.fileSizes
  | .unreadable _, path, r => by simp [Dir.readable]
  | .listed c, path, r => by
    intro hr v hv
    simp only [Dir.census, List.mem_append, List.mem_singleton] at hv
    rcases hv with hv | hv
    · exact content_census_all cfg h c path r (by simpa [Dir.readable] using hr) v hv
    · subst hv
      exact ⟨rfl, hr, List.Sublist.refl _⟩
theorem content_census_all (cfg : Config) (h : cfg.IgnoreDotFiles = false) :
    ∀ (c : Content) (path : String) (r : Bool), c.readable = true →
      ∀ v ∈ c.census cfg path r,
        v.reached = r ∧ v.dir.readable = true ∧ v.dir.fileSizes.Sublist c.fileSizes
  | .nil, path, r => by simp [Content.census]
  | .file name size rest, path, r => by
    intro hr v hv
    simp only [Content.census] at hv
    obtain ⟨h1, h2, h3⟩ := content_census_all cfg h rest path r
      (by simpa [Content.readable] using hr) v hv
    exact ⟨h1, h2, List.Sublist.cons _ h3⟩
  | .subdir name _ d rest, path, r => by
    intro hr v hv
    simp only [Content.readable, Bool.and_eq_true] at hr
    simp only [Content.census, List.mem_append, skips_false cfg h, Bool.not_false,
      Bool.and_true] at hv
    simp only [Content.fileSizes]
    rcases hv with hv | hv
    · obtain ⟨h1, h2, h3⟩ := dir_census_all cfg h d _ r hr.1 v hv
      exact ⟨h1, h2, h3.trans (List.sublist_append_left _ _)⟩
    · obtain ⟨h1, h2, h3⟩ := content_census_all cfg h rest path r hr.2 v hv
      exact ⟨h1, h2, h3.trans (List.sublist_append_right _ _)⟩
end

theorem Dir.listed_of_readable {d : Dir} (h : d.readable = true) : ∃ c, d = .listed c := by
  cases d with
  | unreadable _ => simp [Dir.readable] at h
  | listed c => exact ⟨c, rfl⟩

/-- C1. Cumulative size: when every listing of a directory tree succeeds and no
entry is passed over (ignoreDotFiles is off), the file sizes being byte counts
whose total fits in an int64, scanDirectory returns the total without error and
the size table then maps every directory of the tree, the root included, to the
sum of the sizes of all the entries that are not directories beneath it, at any
depth. -/
theorem scan_cumulative (cfg : Config) (root : String) (fs : Dir)
    (hdot : cfg.IgnoreDotFiles = false) (hread : fs.readable = true)
    (hwf : fs.wellFormed = true) (hnn : ∀ s ∈ fs.fileSizes, 0 ≤ s)
    (hfit : fs.fileSizes.sum < 2 ^ 63) :
    ∃ t, scanDirectory cfg root fs [] = some ((fs.fileSizes.sum, none), t) ∧
      ∀ v ∈ fs.census cfg root true, mapLookup t v.key = some v.dir.fileSizes.sum := by
  have hsum0 : ∀ l : List Int, (∀ s ∈ l, 0 ≤ s) → 0 ≤ l.sum := fun l hl =>
    List.sum_nonneg hl
  have hwrap : ∀ l : List Int, l.Sublist fs.fileSizes → wrapInt64 l.sum = l.sum := by
    intro l hl
    have h1 : l.sum ≤ fs.fileSizes.sum := hl.sum_le_sum (fun a ha => hnn a ha)
    have h2 : 0 ≤ l.sum := hsum0 l (fun s hs => hnn s (hl.subset hs))
    exact wrapInt64_of_range _ (by omega) (by omega)
  refine ⟨assignAll [] (records cfg (fs.census cfg root true)), ?_, ?_⟩
  · rw [scanDirectory_ok cfg fs root [] (by simp [hdot])
      (Or.inr (dir_failures_of_readable cfg fs hread)), dir_seen_eq_sum cfg hdot,
      hwrap _ (List.Sublist.refl _)]
  · intro v hv
    obtain ⟨h1, h2, h3⟩ := dir_census_all cfg hdot fs root true hread v hv
    obtain ⟨c, hc⟩ := Dir.listed_of_readable h2
    apply mapLookup_assignAll_mem _ _ _ _
      (records_keys_nodup cfg _ (dir_census_nodup cfg fs root true hwf))
    rw [records_mem]
    refine ⟨v, hv, c, by simp [Visit.listing, h1, hc], rfl, ?_⟩
    have : (Dir.listed c).seen cfg = (Dir.listed c).fileSizes.sum :=
      dir_seen_eq_sum cfg hdot _
    rw [hc] at h3 ⊢
    simp only [Dir.seen] at this
    rw [this]
    exact hwrap _ h3

/-- Scenario B: the root with the subdirectory `sub` that holds one file of
2,097,152 bytes gives that size for `root/sub` and for `root`. -/
theorem scan_cumulative_witness :
    ∃ t, scanDirectory plainConfig "root" scenarioB [] = some ((2097152, none), t) ∧
      mapLookup t "root/sub" = some 2097152 ∧ mapLookup t "root" = some 2097152 := by
  obtain ⟨t, h1, h2⟩ := scan_cumulative plainConfig "root" scenarioB rfl rfl (by decide)
    (by decide) (by decide)
  refine ⟨t, h1, ?_, ?_⟩
  · exact h2 ⟨"root/sub", true, .listed (.file "data" 2097152 .nil)⟩ (List.Mem.head _)
  · exact h2 ⟨"root", true, scenarioB⟩ (List.Mem.tail _ (List.Mem.head _))

mutual
theorem content_named_of_wellFormed : ∀ c : Content, c.wellFormed = true → c.named = true
  | .nil => by simp [Content.named]
  | .file name _ rest => by
    intro h
    obtain ⟨h1, _, h3⟩ := Content.wellFormed_file h
    simp [Content.named, h1.1, content_named_of_wellFormed rest h3]
  | .subdir name _ d rest => by
    intro h
    obtain ⟨h1, _, h3, h4⟩ := Content.wellFormed_subdir h
    simp [Content.named, h1.1, content_named_of_wellFormed rest h4,
      dir_named_of_wellFormed d h3]
theorem dir_named_of_wellFormed : ∀ d : Dir, d.wellFormed = true → d.named = true
  | .unreadable _ => by simp [Dir.named]
  | .listed c => by
    intro h
    simp only [Dir.named]
    exact content_named_of_wellFormed c (by simpa [Dir.wellFormed] using h)
end

mutual
theorem scanDirectory_fails (cfg : Config) (hi : cfg.IgnoreErrors = false) :
    ∀ (d : Dir) (path : String) (t : Table) (e : Error) (es : List Error),
      (cfg.IgnoreDotFiles = true → d.named = true) → d.failures cfg = e :: es →
      ∃ t1, scanDirectory cfg path d t = some ((0, some e), t1)
  | .unreadable err, path, t, e, es => by
    intro _ hf
    simp only [Dir.failures, List.cons.injEq] at hf
    exact ⟨t, by simp [scanDirectory, hi, hf.1]⟩
  | .listed c, path, t, e, es => by
    intro hn hf
    obtain ⟨t1, h⟩ := scanLoop_fails cfg hi c path 0 t e es (by simpa [Dir.named] using hn)
      (by simpa [Dir.failures] using hf)
    exact ⟨t1, by simp [scanDirectory, h]⟩
theorem scanLoop_fails (cfg : Config) (hi : cfg.IgnoreErrors = false) :
    ∀ (c : Content) (path : String) (acc : Int) (t : Table) (e : Error) (es : List Error),
      (cfg.IgnoreDotFiles = true → c.named = true) → c.failures cfg = e :: es →
      ∃ t1, scanLoop cfg path c acc t = some (.error e, t1)
  | .nil, path, acc, t, e, es => by
    intro _ hf
    simp [Content.failures] at hf
  | .file name size rest, path, acc, t, e, es => by
    intro hn hf
    have hname : cfg.IgnoreDotFiles = true → name.data ≠ [] := fun hc => by
      have := hn hc
      simp only [Content.named, Bool.and_eq_true, decide_eq_true_eq] at this
      exact this.1
    have hn1 : cfg.IgnoreDotFiles = true → rest.named = true := fun hc => by
      have := hn hc
      simp only [Content.named, Bool.and_eq_true, decide_eq_true_eq] at this
      exact this.2
    simp only [Content.failures] at hf
    simp only [scanLoop, dotCheck_eq cfg name hname]
    cases hs : skips cfg name with
    | true => exact scanLoop_fails cfg hi rest path _ t e es hn1 hf
    | false => exact scanLoop_fails cfg hi rest path _ t e es hn1 hf
  | .subdir name size d rest, path, acc, t, e, es => by
    intro hn hf
    have hname : cfg.IgnoreDotFiles = true → name.data ≠ [] := fun hc => by
      have := hn hc
      simp only [Content.named, Bool.and_eq_true, decide_eq_true_eq] at this
      exact this.1.1
    have hn1 : cfg.IgnoreDotFiles = true → rest.named = true := fun hc => by
      have := hn hc
      simp only [Content.named, Bool.and_eq_true, decide_eq_true_eq] at this
      exact this.2
    have hn2 : cfg.IgnoreDotFiles = true → d.named = true := fun hc => by
      have := hn hc
      simp only [Content.named, Bool.and_eq_true, decide_eq_true_eq] at this
      exact this.1.2
    simp only [Content.failures] at hf
    simp only [scanLoop, dotCheck_eq cfg name hname]
    cases hs : skips cfg name with
    | true =>
      simp only [hs, if_true, List.nil_append] at hf
      exact scanLoop_fails cfg hi rest path _ t e es hn1 hf
    | false =>
      simp only [hs, Bool.false_eq_true, if_false] at hf
      cases hd : d.failures cfg with
      | nil =>
        rw [hd, List.nil_append] at hf
        simp only [scanDirectory_ok cfg d (Join path name) t hn2 (Or.inr hd)]
        exact scanLoop_fails cfg hi rest path _ _ e es hn1 hf
      | cons e1 es1 =>
        rw [hd] at hf
        simp only [List.cons_append, List.cons.injEq] at hf
        obtain ⟨t1, h⟩ := scanDirectory_fails cfg hi d (Join path name) t e1 es1 hn2 hd
        exact ⟨t1, by simp [h, hf.1]⟩
end

/-- A scan of a tree with names that are not empty returns: without error, with
the sum of what it sees and the table of `scanDirectory_ok`, when errors are
ignored or no listing it gets to fails, and else with the first error. -/
theorem scanDirectory_no_error (cfg : Config) (d : Dir) (path : String) (t t1 : Table)
    (n : Int) (hn : cfg.IgnoreDotFiles = true → d.named = true)
    (h : scanDirectory cfg path d t = some ((n, none), t1)) :
    (cfg.IgnoreErrors = true ∨ d.failures cfg = []) ∧ n = wrapInt64 (d.seen cfg) ∧
      t1 = assignAll t (records cfg (d.census cfg path true)) := by
  have hf : cfg.IgnoreErrors = true ∨ d.failures cfg = [] := by
    cases hi : cfg.IgnoreErrors with
    | true => exact Or.inl rfl
    | false =>
      cases hd : d.failures cfg with
      | nil => exact Or.inr rfl
      | cons e es =>
        obtain ⟨t2, h2⟩ := scanDirectory_fails cfg hi d path t e es hn hd
        rw [h2] at h
        simp at h
  rw [scanDirectory_ok cfg d path t hn hf] at h
  simp only [Option.some.injEq, Prod.mk.injEq, and_true] at h
  exact ⟨hf, h.1.symm, h.2.symm⟩

theorem dir_census_root (cfg : Config) (d : Dir) (path : String) (r : Bool) :
    (⟨path, r, d⟩ : Visit) ∈ d.census cfg path r := by
  cases d with
  | unreadable err => simp [Dir.census]
  | listed c => simp [Dir.census]

theorem content_census_child (cfg : Config) :
    ∀ (c : Content) (path : String) (r : Bool), ∀ p ∈ c.children,
      (⟨Join path p.1, r && !skips cfg p.1, p.2⟩ : Visit) ∈ c.census cfg path r
  | .nil, path, r => by simp [Content.children]
  | .file _ _ rest, path, r => by
    intro p hp
    simp only [Content.children] at hp
    simp only [Content.census]
    exact content_census_child cfg rest path r p hp
  | .subdir name _ d rest, path, r => by
    intro p hp
    simp only [Content.children, List.mem_cons] at hp
    simp only [Content.census, List.mem_append]
    rcases hp with hp | hp
    · subst hp
      exact Or.inl (dir_census_root cfg d _ _)
    · exact Or.inr (content_census_child cfg rest path r p hp)

mutual
theorem dir_census_children (cfg : Config) :
    ∀ (d : Dir) (path : String) (r : Bool), ∀ v ∈ d.census cfg path r,
      ∀ c, v.dir = .listed c → ∀ p ∈ c.children,
        (⟨Join v.key p.1, v.reached && !skips cfg p.1, p.2⟩ : Visit) ∈ d.census cfg path r
  | .unreadable err, path, r => by
    intro v hv c hc
    simp only [Dir.census, List.mem_singleton] at hv
    subst hv
    simp at hc
  | .listed c0, path, r => by
    intro v hv c hc p hp
    simp only [Dir.census, List.mem_append, List.mem_singleton] at hv ⊢
    rcases hv with hv | hv
    · exact Or.inl (content_census_children cfg c0 path r v hv c hc p hp)
    · subst hv
      simp only [Dir.listed.injEq] at hc
      subst hc
      exact Or.inl (content_census_child cfg _ path r p hp)
theorem content_census_children (cfg : Config) :
    ∀ (c0 : Content) (path : String) (r : Bool), ∀ v ∈ c0.census cfg path r,
      ∀ c, v.dir = .listed c → ∀ p ∈ c.children,
        (⟨Join v.key p.1, v.reached && !skips cfg p.1, p.2⟩ : Visit) ∈ c0.census cfg path r
  | .nil, path, r => by simp [Content.census]
  | .file _ _ rest, path, r => by
    intro v hv c hc p hp
    simp only [Content.census] at hv ⊢
    exact content_census_children cfg rest path r v hv c hc p hp
  | .subdir name _ d rest, path, r => by
    intro v hv c hc p hp
    simp only [Content.census, List.mem_append] at hv ⊢
    rcases hv with hv | hv
    · exact Or.inl (dir_census_children cfg d _ _ v hv c hc p hp)
    · exact Or.inr (content_census_children cfg rest path r v hv c hc p hp)
end

/-- After a scan without error the table holds, for a directory of a well-formed
tree, the sum of what the scanner sees in it when the scanner listed it, and
nothing otherwise. -/
theorem mapLookup_records (cfg : Config) (d : Dir) (path : String)
    (hwf : d.wellFormed = true) (v : Visit) (hv : v ∈ d.census cfg path true) :
    mapLookup (assignAll [] (records cfg (d.census cfg path true))) v.key =
      (v.listing).map (fun c => wrapInt64 (c.seen cfg)) := by
  have hnd := dir_census_nodup cfg d path true hwf
  cases hl : v.listing with
  | some c =>
    simp only [Option.map_some']
    apply mapLookup_assignAll_mem _ _ _ _ (records_keys_nodup cfg _ hnd)
    rw [records_mem]
    exact ⟨v, hv, c, hl, rfl, rfl⟩
  | none =>
    simp only [Option.map_none']
    rw [mapLookup_assignAll_not_mem]
    · rfl
    · intro hm
      obtain ⟨p, hp, hpk⟩ := List.mem_map.mp hm
      obtain ⟨k, x⟩ := p
      simp only at hpk
      subst hpk
      obtain ⟨w, hw, c, hc, hk, _⟩ := (records_mem cfg _ _ _).mp hp
      have : w = v := by
        have hinj := List.inj_on_of_nodup_map hnd
        exact hinj hw hv hk
      rw [this, hl] at hc
      simp at hc

theorem wrapInt64_congr_add {a b c d : Int} (h1 : wrapInt64 a = wrapInt64 b)
    (h2 : wrapInt64 c = wrapInt64 d) : wrapInt64 (a + c) = wrapInt64 (b + d) := by
  unfold wrapInt64 at *
  omega

theorem content_seen_split (cfg : Config) (t : Table) (path : String) :
    ∀ c : Content,
      (∀ p ∈ c.children, skips cfg p.1 = false → ∀ c1, p.2 = .listed c1 →
        mapIndex t (Join path p.1) = wrapInt64 (c1.seen cfg)) →
      wrapInt64 (c.fileTotal cfg + c.childTotal cfg t path) = wrapInt64 (c.seen cfg)
  | .nil => by simp [Content.fileTotal, Content.childTotal, Content.seen]
  | .file name size rest => by
    intro h
    have ih := content_seen_split cfg t path rest (by simpa [Content.children] using h)
    simp only [Content.fileTotal, Content.childTotal, Content.seen, add_assoc]
    exact wrapInt64_congr_add rfl ih
  | .subdir name _ d rest => by
    intro h
    have ih := content_seen_split cfg t path rest
      (fun p hp => h p (by simp [Content.children, hp]))
    have h0 := h (name, d) (by simp [Content.children])
    simp only [Content.fileTotal, Content.childTotal, Content.seen]
    have hd : wrapInt64 (if skips cfg name then 0 else d.recorded t (Join path name)) =
        wrapInt64 (if skips cfg name then 0 else d.seen cfg) := by
      cases hs : skips cfg name with
      | true => simp
      | false =>
        simp only [Bool.false_eq_true, if_false]
        cases d with
        | unreadable err => simp [Dir.seen, Dir.recorded]
        | listed c1 =>
          simp only [Dir.seen, Dir.recorded]
          rw [h0 hs c1 rfl, wrapInt64_idem]
    have := wrapInt64_congr_add hd ih
    rw [← this]
    congr 1
    ring

theorem Visit.listing_eq_some {v : Visit} {c : Content} :
    v.listing = some c ↔ v.reached = true ∧ v.dir = .listed c := by
  obtain ⟨k, r, d⟩ := v
  cases r <;> cases d <;> simp [Visit.listing]

/-- C2. Additivity (P1): after a scan of a directory tree that returns without
error, under any configuration, every directory of the tree that has an entry
in the size table is a directory that was listed, and its entry is, in int64
arithmetic, the total size of its entries that are not directories and are not
passed over, plus the sizes recorded in the table for its subdirectories that
are not passed over and could be listed; a subdirectory whose listing failed
counts for nothing. -/
theorem scan_additive (cfg : Config) (root : String) (fs : Dir) (hwf : fs.wellFormed = true)
    (n : Int) (t : Table) (hscan : scanDirectory cfg root fs [] = some ((n, none), t)) :
    ∀ v ∈ fs.census cfg root true, (mapLookup t v.key).isSome = true →
      ∃ c, v.dir = .listed c ∧
        mapLookup t v.key = some (wrapInt64 (c.fileTotal cfg + c.childTotal cfg t v.key)) := by
  intro v hv hsome
  obtain ⟨_, _, ht⟩ := scanDirectory_no_error cfg fs root [] t n
    (fun _ => dir_named_of_wellFormed fs hwf) hscan
  have hlook : ∀ w ∈ fs.census cfg root true,
      mapLookup t w.key = (w.listing).map (fun c => wrapInt64 (c.seen cfg)) := by
    intro w hw
    rw [ht]
    exact mapLookup_records cfg fs root hwf w hw
  rw [hlook v hv] at hsome ⊢
  cases hl : v.listing with
  | none => simp [hl] at hsome
  | some c =>
    obtain ⟨hr, hd⟩ := Visit.listing_eq_some.mp hl
    refine ⟨c, hd, ?_⟩
    simp only [Option.map_some', Option.some.injEq]
    symm
    apply content_seen_split cfg t v.key c
    intro p hp hs c1 hc1
    have hw := dir_census_children cfg fs root true v hv c hd p hp
    have h1 := hlook _ hw
    have h2 : (⟨Join v.key p.1, v.reached && !skips cfg p.1, p.2⟩ : Visit).listing = some c1 :=
      Visit.listing_eq_some.mpr ⟨by simp [hr, hs], hc1⟩
    rw [h2] at h1
    simp only [Option.map_some'] at h1
    simp [mapIndex, h1]

/-- Scenario A: files of 100 and 1,048,476 bytes give 1,048,576 for the root,
which is the sum of the two sizes. -/
theorem scan_additive_witness :
    scanDirectory plainConfig "root" scenarioA [] = some ((1048576, none), [("root", 1048576)]) ∧
      ∃ c, scenarioA = .listed c ∧ mapLookup [("root", 1048576)] "root" =
        some (wrapInt64 (c.fileTotal plainConfig +
          c.childTotal plainConfig [("root", 1048576)] "root")) :=
  ⟨by decide, scan_additive plainConfig "root" scenarioA (by decide) 1048576
    [("root", 1048576)] (by decide) ⟨"root", true, scenarioA⟩ (List.Mem.head _) (by decide)⟩

theorem dotCheck_some (cfg : Config) (name : String) (b : Bool)
    (h : dotCheck cfg name = some b) : skips cfg name = b := by
  unfold dotCheck at h
  unfold skips dotName
  cases hc : cfg.IgnoreDotFiles with
  | false =>
    rw [hc] at h
    simp at h
    simp [h]
  | true =>
    rw [hc] at h
    cases hd : name.data with
    | nil => rw [hd] at h; simp at h
    | cons x xs =>
      rw [hd] at h
      simp at h
      simp [h]

mutual
theorem scanDirectory_keys (cfg : Config) :
    ∀ (d : Dir) (path : String) (t : Table) (ret : Int × Option Error) (t1 : Table),
      scanDirectory cfg path d t = some (ret, t1) →
      ∀ k ∈ mapKeys t1, k ∈ mapKeys t ∨
        ∃ v ∈ d.census cfg path true, v.listing.isSome = true ∧ v.key = k
  | .unreadable err, path, t, ret, t1 => by
    intro h k hk
    simp only [scanDirectory] at h
    split at h <;>
    · simp only [Option.some.injEq, Prod.mk.injEq] at h
      rw [← h.2] at hk
      exact Or.inl hk
  | .listed c, path, t, ret, t1 => by
    intro h k hk
    simp only [scanDirectory] at h
    split at h
    · simp at h
    · rename_i err t2 hl
      simp only [Option.some.injEq, Prod.mk.injEq] at h
      rw [← h.2] at hk
      rcases scanLoop_keys cfg c path 0 t _ t2 hl k hk with h1 | ⟨v, hv, h2⟩
      · exact Or.inl h1
      · exact Or.inr ⟨v, by simp [Dir.census, hv], h2⟩
    · rename_i sizeByte t2 hl
      simp only [Option.some.injEq, Prod.mk.injEq] at h
      rw [← h.2, mapKeys_mapAssign] at hk
      have hk2 : k ∈ mapKeys t2 ∨ k = path := by
        split at hk
        · exact Or.inl hk
        · simpa using hk
      rcases hk2 with hk2 | hk2
      · rcases scanLoop_keys cfg c path 0 t _ t2 hl k hk2 with h1 | ⟨v, hv, h2⟩
        · exact Or.inl h1
        · exact Or.inr ⟨v, by simp [Dir.census, hv], h2⟩
      · exact Or.inr ⟨⟨path, true, .listed c⟩, by simp [Dir.census],
          by simp [Visit.listing], hk2.symm⟩
theorem scanLoop_keys (cfg : Config) :
    ∀ (c : Content) (path : String) (acc : Int) (t : Table) (r : Except Error Int)
      (t1 : Table), scanLoop cfg path c acc t = some (r, t1) →
      ∀ k ∈ mapKeys t1, k ∈ mapKeys t ∨
        ∃ v ∈ c.census cfg path true, v.listing.isSome = true ∧ v.key = k
  | .nil, path, acc, t, r, t1 => by
    intro h k hk
    simp only [scanLoop, Option.some.injEq, Prod.mk.injEq] at h
    rw [← h.2] at hk
    exact Or.inl hk
  | .file name size rest, path, acc, t, r, t1 => by
    intro h k hk
    simp only [scanLoop] at h
    simp only [Content.census]
    split at h
    · simp at h
    · exact scanLoop_keys cfg rest path _ t r t1 h k hk
    · exact scanLoop_keys cfg rest path _ t r t1 h k hk
  | .subdir name size d rest, path, acc, t, r, t1 => by
    intro h k hk
    simp only [scanLoop] at h
    simp only [Content.census, List.mem_append]
    split at h
    · simp at h
    · rcases scanLoop_keys cfg rest path _ t r t1 h k hk with h1 | ⟨v, hv, h2⟩
      · exact Or.inl h1
      · exact Or.inr ⟨v, Or.inr hv, h2⟩
    · rename_i hdc
      have hs := dotCheck_some cfg name false hdc
      simp only [hs, Bool.not_false, Bool.and_true]
      split at h
      · simp at h
      · rename_i x err t2 hd
        simp only [Option.some.injEq, Prod.mk.injEq] at h
        rw [← h.2] at hk
        rcases scanDirectory_keys cfg d _ t _ t2 hd k hk with h1 | ⟨v, hv, h2⟩
        · exact Or.inl h1
        · exact Or.inr ⟨v, Or.inl hv, h2⟩
      · rename_i ds t2 hd
        rcases scanLoop_keys cfg rest path _ t2 r t1 h k hk with h1 | ⟨v, hv, h2⟩
        · rcases scanDirectory_keys cfg d _ t _ t2 hd k h1 with h3 | ⟨v, hv, h2⟩
          · exact Or.inl h3
          · exact Or.inr ⟨v, Or.inl hv, h2⟩
        · exact Or.inr ⟨v, Or.inr hv, h2⟩
end

/-- C3, as stated, fails: with ignoreDotFiles set, the scan of the start
directory `.config` records the key `.config`, whose last element starts with a
dot, and the key `.config/a`, which lies beneath it. -/
theorem dot_keys_counterexample :
    scanDirectory dotConfig ".config" oneSubdir [] =
        some ((0, none), [(".config/a", 0), (".config", 0)]) ∧
      ".config" ∈ mapKeys [(".config/a", 0), (".config", 0)] ∧ dotBase ".config" = true ∧
      ".config/a" ∈ mapKeys [(".config/a", 0), (".config", 0)] ∧
      beneath ".config/a" ".config" = true := by
  refine ⟨by decide, by decide, by decide, by decide, by decide⟩

/-- After a scan, whatever it returns, every key of the table is the path of a
directory the scanner gets to, and no directory it does not get to has a key. -/
theorem unreached_absent (cfg : Config) (root : String) (fs : Dir)
    (hwf : fs.wellFormed = true) (ret : Int × Option Error) (t : Table)
    (hscan : scanDirectory cfg root fs [] = some (ret, t)) :
    (∀ k ∈ mapKeys t, ∃ v ∈ fs.census cfg root true, v.key = k ∧ v.listing.isSome = true) ∧
      ∀ v ∈ fs.census cfg root true, v.listing = none → v.key ∉ mapKeys t := by
  have hkeys : ∀ k ∈ mapKeys t,
      ∃ v ∈ fs.census cfg root true, v.listing.isSome = true ∧ v.key = k := by
    intro k hk
    rcases scanDirectory_keys cfg fs root [] ret t hscan k hk with h | h
    · simp [mapKeys] at h
    · exact h
  constructor
  · intro k hk
    obtain ⟨v, hv, hl, hvk⟩ := hkeys k hk
    exact ⟨v, hv, hvk, hl⟩
  · intro v hv hr hk
    obtain ⟨w, hw, hl, hwk⟩ := hkeys v.key hk
    have hnd := dir_census_nodup cfg fs root true hwf
    have : w = v := List.inj_on_of_nodup_map hnd hw hv hwk
    subst this
    rw [hr] at hl
    simp at hl

/-- C3, amended. With ignoreDotFiles set, after scanDirectory on a directory
tree, whatever it returns, every key of the size table is the path of a
directory that lies beneath no entry whose name starts with a dot (the root
path itself is not examined), and no directory of the tree that is an entry
whose name starts with a dot, or lies beneath such an entry, has a key in the
table. -/
theorem dot_entries_absent (cfg : Config) (root : String) (fs : Dir)
    (hwf : fs.wellFormed = true) (ret : Int × Option Error) (t : Table)
    (hscan : scanDirectory (withDots cfg) root fs [] = some (ret, t)) :
    (∀ k ∈ mapKeys t, ∃ v ∈ fs.census (withDots cfg) root true, v.key = k ∧ v.reached = true) ∧
      ∀ v ∈ fs.census (withDots cfg) root true, v.reached = false → v.key ∉ mapKeys t := by
  obtain ⟨h1, h2⟩ := unreached_absent (withDots cfg) root fs hwf ret t hscan
  constructor
  · intro k hk
    obtain ⟨v, hv, hvk, hl⟩ := h1 k hk
    obtain ⟨c, hc⟩ := Option.isSome_iff_exists.mp hl
    exact ⟨v, hv, hvk, (Visit.listing_eq_some.mp hc).1⟩
  · intro v hv hr
    apply h2 v hv
    obtain ⟨k, r, d⟩ := v
    simp only at hr
    subst hr
    rfl

/-- Scenario C: the directory `.hidden` of the root has no entry in the table. -/
theorem dot_entries_absent_witness :
    scanDirectory dotConfig "root" scenarioC [] = some ((0, none), [("root", 0)]) ∧
      "root/.hidden" ∉ mapKeys [("root", 0)] :=
  ⟨by decide, (dot_entries_absent plainConfig "root" scenarioC (by decide) (0, none)
    [("root", 0)] (by decide)).2 ⟨"root/.hidden", false, .listed (.file "f" 500 .nil)⟩
    (List.Mem.head _) rfl⟩

theorem dotCheck_withDots (cfg : Config) (name : String) (h : name.data ≠ []) :
    dotCheck (withDots cfg) name = some (dotName name) := by
  rw [dotCheck_eq (withDots cfg) name (fun _ => h)]
  simp [skips, withDots]

theorem dotCheck_withoutDots (cfg : Config) (name : String) :
    dotCheck (withoutDots cfg) name = some false := by
  simp [dotCheck, withoutDots]

mutual
theorem scanDirectory_prune (cfg : Config) :
    ∀ (d : Dir) (path : String) (t : Table), d.named = true →
      scanDirectory (withDots cfg) path d t = scanDirectory (withoutDots cfg) path d.prune t
  | .unreadable err, path, t => by
    intro _
    simp [scanDirectory, Dir.prune, withDots, withoutDots]
  | .listed c, path, t => by
    intro hn
    simp only [scanDirectory, Dir.prune]
    rw [scanLoop_prune cfg c path 0 t (by simpa [Dir.named] using hn)]
theorem scanLoop_prune (cfg : Config) :
    ∀ (c : Content) (path : String) (acc : Int) (t : Table), c.named = true →
      scanLoop (withDots cfg) path c acc t = scanLoop (withoutDots cfg) path c.prune acc t
  | .nil, path, acc, t => by
    intro _
    simp [scanLoop, Content.prune]
  | .file name size rest, path, acc, t => by
    intro hn
    simp only [Content.named, Bool.and_eq_true, decide_eq_true_eq] at hn
    simp only [scanLoop, Content.prune, dotCheck_withDots cfg name hn.1]
    cases hd : dotName name with
    | true =>
      simp only [if_true]
      exact scanLoop_prune cfg rest path acc t hn.2
    | false =>
      simp only [Bool.false_eq_true, if_false, scanLoop, dotCheck_withoutDots]
      exact scanLoop_prune cfg rest path _ t hn.2
  | .subdir name size d rest, path, acc, t => by
    intro hn
    simp only [Content.named, Bool.and_eq_true, decide_eq_true_eq] at hn
    simp only [scanLoop, Content.prune, dotCheck_withDots cfg name hn.1.1]
    cases hd : dotName name with
    | true =>
      simp only [if_true]
      exact scanLoop_prune cfg rest path acc t hn.2
    | false =>
      simp only [Bool.false_eq_true, if_false, scanLoop, dotCheck_withoutDots]
      rw [scanDirectory_prune cfg d (Join path name) t hn.1.2]
      cases scanDirectory (withoutDots cfg) (Join path name) d.prune t with
      | none => rfl
      | some r =>
        obtain ⟨⟨ds, e⟩, t1⟩ := r
        cases e with
        | some err => rfl
        | none =>
          simp only
          exact scanLoop_prune cfg rest path _ t1 hn.2
end

/-- C4. Dot-file exclusion as a refinement: for every tree whose entry names
are not empty, every path and every initial table, scanning with ignoreDotFiles
set gives the same return value, the same error and the same size table as
scanning, with ignoreDotFiles not set, the tree from which every entry whose
name begins with a dot has been deleted together with what lies beneath it. -/
theorem scan_dots_prune (cfg : Config) (root : String) (fs : Dir) (t : Table)
    (hn : fs.named = true) :
    scanDirectory (withDots cfg) root fs t = scanDirectory (withoutDots cfg) root fs.prune t :=
  scanDirectory_prune cfg fs root t hn

/-- Scenario C: a root that holds only `.hidden` with a file of 500 bytes scans
like an empty root, with 0 for the root and no entry for `root/.hidden`; and the
name `a.b`, which has its dot further on, is kept. -/
theorem scan_dots_prune_witness :
    scenarioC.named = true ∧
      scanDirectory (withDots plainConfig) "root" scenarioC [] =
        scanDirectory (withoutDots plainConfig) "root" scenarioC.prune [] ∧
      scanDirectory (withoutDots plainConfig) "root" scenarioC.prune [] =
        some ((0, none), [("root", 0)]) ∧
      (Content.file "a.b" 7 .nil).prune = Content.file "a.b" 7 .nil :=
  ⟨by decide, scan_dots_prune plainConfig "root" scenarioC [] (by decide), by decide, rfl⟩

/-- C5. Error absorption (P4): with ignoreErrors set, scanDirectory on a
directory tree never returns an error.  It returns the sum of what it sees
(`Dir.seen`), in which a directory whose listing fails counts for exactly 0
while the entries after it are counted; the table records that sum for every
directory the scanner lists, and has no entry for a directory whose listing
fails. -/
theorem scan_absorbs (cfg : Config) (root : String) (fs : Dir)
    (hi : cfg.IgnoreErrors = true) (hwf : fs.wellFormed = true) :
    ∃ t, scanDirectory cfg root fs [] = some ((wrapInt64 (fs.seen cfg), none), t) ∧
      (∀ v ∈ fs.census cfg root true, ∀ c, v.listing = some c →
        mapLookup t v.key = some (wrapInt64 (c.seen cfg))) ∧
      (∀ v ∈ fs.census cfg root true, ∀ err, v.dir = .unreadable err →
        mapLookup t v.key = none) := by
  refine ⟨assignAll [] (records cfg (fs.census cfg root true)),
    scanDirectory_ok cfg fs root [] (fun _ => dir_named_of_wellFormed fs hwf) (Or.inl hi),
    ?_, ?_⟩
  · intro v hv c hc
    rw [mapLookup_records cfg fs root hwf v hv, hc]
    rfl
  · intro v hv err he
    rw [mapLookup_records cfg fs root hwf v hv]
    obtain ⟨k, r, d⟩ := v
    simp only at he
    subst he
    cases r <;> rfl

/-- Scenario D: the root holds a file of 10 bytes, a subdirectory that cannot
be listed and a subdirectory with 32 bytes; the scan returns 42 without error,
records 42 for the root and 32 for the directory after the failed one, and has
no entry for the failed one. -/
theorem scan_absorbs_witness :
    ∃ t, scanDirectory lenientConfig "root" scenarioD [] = some ((42, none), t) ∧
      mapLookup t "root" = some 42 ∧ mapLookup t "root/open" = some 32 ∧
      mapLookup t "root/locked" = none := by
  obtain ⟨t, h1, h2, h3⟩ := scan_absorbs lenientConfig "root" scenarioD rfl (by decide)
  refine ⟨t, h1, ?_, ?_, ?_⟩
  · exact h2 ⟨"root", true, scenarioD⟩
      (List.Mem.tail _ (List.Mem.tail _ (List.Mem.head _))) _ rfl
  · exact h2 ⟨"root/open", true, .listed (.file "f" 32 .nil)⟩
      (List.Mem.tail _ (List.Mem.head _)) _ rfl
  · exact h3 ⟨"root/locked", true, .unreadable "permission denied"⟩ (List.Mem.head _) _ rfl

theorem Visit.failure_eq_some {v : Visit} {e : Error} :
    v.failure = some e ↔ v.reached = true ∧ v.dir = .unreadable e := by
  obtain ⟨k, r, d⟩ := v
  cases r <;> cases d <;> simp [Visit.failure]

mutual
theorem dir_failures_census (cfg : Config) (e : Error) :
    ∀ (d : Dir) (path : String) (r : Bool),
      (∃ v ∈ d.census cfg path r, v.failure = some e) ↔ r = true ∧ e ∈ d.failures cfg
  | .unreadable err, path, r => by
    simp only [Dir.census, List.mem_singleton, exists_eq_left, Visit.failure_eq_some,
      Dir.unreadable.injEq, Dir.failures]
    constructor
    · rintro ⟨h1, h2⟩
      exact ⟨h1, h2 ▸ rfl⟩
    · rintro ⟨h1, h2⟩
      exact ⟨h1, h2.symm⟩
  | .listed c, path, r => by
    simp only [Dir.census, List.mem_append, List.mem_singleton, Dir.failures]
    rw [← content_failures_census cfg e c path r]
    constructor
    · rintro ⟨v, hv | hv, h⟩
      · exact ⟨v, hv, h⟩
      · subst hv
        simp [Visit.failure_eq_some] at h
    · rintro ⟨v, hv, h⟩
      exact ⟨v, Or.inl hv, h⟩
theorem content_failures_census (cfg : Config) (e : Error) :
    ∀ (c : Content) (path : String) (r : Bool),
      (∃ v ∈ c.census cfg path r, v.failure = some e) ↔ r = true ∧ e ∈ c.failures cfg
  | .nil, path, r => by simp [Content.census, Content.failures]
  | .file _ _ rest, path, r => by
    simp only [Content.census, Content.failures]
    exact content_failures_census cfg e rest path r
  | .subdir name _ d rest, path, r => by
    have h1 := dir_failures_census cfg e d (Join path name) (r && !skips cfg name)
    have h2 := content_failures_census cfg e rest path r
    simp only [Content.census, List.mem_append, Content.failures]
    constructor
    · rintro ⟨v, hv | hv, h⟩
      · obtain ⟨hr, he⟩ := h1.mp ⟨v, hv, h⟩
        simp only [Bool.and_eq_true, Bool.not_eq_true'] at hr
        exact ⟨hr.1, by simp [hr.2, he]⟩
      · obtain ⟨hr, he⟩ := h2.mp ⟨v, hv, h⟩
        exact ⟨hr, by simp [he]⟩
    · rintro ⟨hr, he⟩
      rcases he with he | he
      · have hs : skips cfg name = false := by
          cases hs1 : skips cfg name with
          | true => simp [hs1] at he
          | false => rfl
        simp only [hs, Bool.false_eq_true, if_false] at he
        obtain ⟨v, hv, h⟩ := h1.mpr ⟨by simp [hr, hs], he⟩
        exact ⟨v, Or.inl hv, h⟩
      · obtain ⟨v, hv, h⟩ := h2.mpr ⟨hr, he⟩
        exact ⟨v, Or.inr hv, h⟩
end

/-- C6. Abort on listing failure: with ignoreErrors not set, scanDirectory on
the start directory returns `(0, error)` if and only if the listing of the root
or of a directory reached from it through directories that are not passed over
fails; the error returned is then the error of the first such listing in the
order of the walk, as `ReadDir` gave it, and `main` writes nothing to its
output. -/
theorem scan_aborts (cfg : Config) (args : List String) (fs : Dir)
    (rangeOrder : Table → List String) (hi : cfg.IgnoreErrors = false)
    (hn : cfg.IgnoreDotFiles = true → fs.named = true) :
    ∃ ret t, scanDirectory cfg (startDir args) fs [] = some (ret, t) ∧
      ((∃ err, ret = (0, some err)) ↔
        ∃ v ∈ fs.census cfg (startDir args) true, v.failure.isSome = true) ∧
      ∀ err, ret.2 = some err →
        ret = (0, some err) ∧ (fs.failures cfg).head? = some err ∧
          (∃ v ∈ fs.census cfg (startDir args) true, v.failure = some err) ∧
          main cfg args fs rangeOrder =
            some ⟨[], some ("Unable to scan directories: " ++ err)⟩ := by
  cases hf : fs.failures cfg with
  | nil =>
    have h := scanDirectory_ok cfg fs (startDir args) [] hn (Or.inr hf)
    refine ⟨_, _, h, ?_, ?_⟩
    · constructor
      · rintro ⟨err, he⟩
        simp at he
      · rintro ⟨v, hv, hs⟩
        obtain ⟨e, he⟩ := Option.isSome_iff_exists.mp hs
        have := (dir_failures_census cfg e fs (startDir args) true).mp ⟨v, hv, he⟩
        rw [hf] at this
        simp at this
    · intro err he
      simp at he
  | cons e es =>
    obtain ⟨t, h⟩ := scanDirectory_fails cfg hi fs (startDir args) [] e es hn hf
    have hex : ∃ v ∈ fs.census cfg (startDir args) true, v.failure = some e :=
      (dir_failures_census cfg e fs (startDir args) true).mpr ⟨rfl, by simp [hf]⟩
    refine ⟨_, t, h, ?_, ?_⟩
    · constructor
      · intro _
        obtain ⟨v, hv, he⟩ := hex
        exact ⟨v, hv, by simp [he]⟩
      · intro _
        exact ⟨e, rfl⟩
    · intro err he
      simp only [Option.some.injEq] at he
      subst he
      exact ⟨rfl, rfl, hex, by simp [main, h]⟩

/-- Scenario D without ignoreErrors: the scan returns the permission error of
the subdirectory and `main` writes no line. -/
theorem scan_aborts_witness :
    ∃ ret t, scanDirectory plainConfig "root" scenarioD [] = some (ret, t) ∧
      ret = (0, some "permission denied") ∧
      main plainConfig ["dirsize", "root"] scenarioD mapKeys =
        some ⟨[], some "Unable to scan directories: permission denied"⟩ := by
  obtain ⟨ret, t, h1, h2, h3⟩ := scan_aborts plainConfig ["dirsize", "root"] scenarioD mapKeys
    rfl (fun _ => by decide)
  obtain ⟨err, he⟩ := h2.mpr ⟨⟨"root/locked", true, .unreadable "permission denied"⟩,
    List.Mem.head _, rfl⟩
  have h4 := h3 err (by rw [he])
  have h5 : err = "permission denied" := by
    have := h4.2.1
    simpa [scenarioD, Dir.failures, Content.failures, skips, plainConfig] using this.symm
  subst h5
  exact ⟨ret, t, h1, he, h4.2.2.2⟩

theorem mapIndex_mapAssign_self (t : Table) (k : String) (v : Int) :
    mapIndex (mapAssign t k v) k = v := by
  simp [mapIndex, mapLookup_mapAssign]

/-- When `scanDirectory` returns without error, `dirSizes[dir]` is the size it
returned. -/
theorem scanDirectory_index (cfg : Config) (dir : String) (d : Dir) (n : Int) (t : Table)
    (h : scanDirectory cfg dir d [] = some ((n, none), t)) : mapIndex t dir = n := by
  cases d with
  | unreadable err =>
    simp only [scanDirectory] at h
    split at h
    · simp only [Option.some.injEq, Prod.mk.injEq, and_true] at h
      rw [← h.2, ← h.1]
      rfl
    · simp at h
  | listed c =>
    simp only [scanDirectory] at h
    split at h
    · simp at h
    · simp at h
    · simp only [Option.some.injEq, Prod.mk.injEq, and_true] at h
      rw [← h.2, mapIndex_mapAssign_self]
      exact h.1

/-- C7. Sum mode (P5): with sum set, when the scan of the start directory
returns without error, the output of `main` is exactly one line, the formatted
value of `dirSizes[root]`, however many entries the table has; and that value is
the size the scan returned for the root. -/
theorem sum_mode (cfg : Config) (args : List String) (fs : Dir)
    (rangeOrder : Table → List String) (n : Int) (t : Table) (hs : cfg.Sum = true)
    (hscan : scanDirectory cfg (startDir args) fs [] = some ((n, none), t)) :
    main cfg args fs rangeOrder =
        some ⟨[fmtMegs cfg (mapIndex t (startDir args)) ++ "\n"], none⟩ ∧
      mapIndex t (startDir args) = n := by
  refine ⟨?_, scanDirectory_index cfg _ fs n t hscan⟩
  simp [main, hscan, hs]

/-- Scenario A in sum mode: the one line `1.00 MB`. -/
theorem sum_mode_witness :
    main sumConfig ["dirsize", "root"] scenarioA mapKeys = some ⟨["1.00 MB\n"], none⟩ ∧
      mapIndex [("root", 1048576)] "root" = 1048576 :=
  sum_mode sumConfig ["dirsize", "root"] scenarioA mapKeys 1048576 [("root", 1048576)] rfl
    (by decide)

theorem collectPaths_foldl (l : List String) (acc : List String) (m : Nat) :
    l.foldl
        (fun acc k => (acc.1 ++ [k], if acc.2 < k.utf8ByteSize then k.utf8ByteSize else acc.2))
        (acc, m) =
      (acc ++ l, l.foldl (fun m k => if m < k.utf8ByteSize then k.utf8ByteSize else m) m) := by
  induction l generalizing acc m with
  | nil => simp
  | cons k rest ih => simp [List.foldl_cons, ih]

theorem collectPaths_fst (l : List String) : (collectPaths l).1 = l := by
  simp [collectPaths, collectPaths_foldl]

theorem stringLess_trichotomy (a b : String) : stringLess a b ∨ a = b ∨ stringLess b a := by
  unfold stringLess
  rcases lt_trichotomy a.data b.data with h | h | h
  · exact Or.inl h
  · exact Or.inr (Or.inl (string_data_inj h))
  · exact Or.inr (Or.inr h)

theorem stringLess_trans {a b c : String} (h1 : stringLess a b) (h2 : stringLess b c) :
    stringLess a c := by
  unfold stringLess at *
  exact lt_trans h1 h2

theorem stringLess_irrefl (a : String) : ¬ stringLess a a := by
  unfold stringLess
  exact lt_irrefl _

theorem stringLess_asymm {a b : String} (h : stringLess a b) : ¬ stringLess b a :=
  fun h2 => stringLess_irrefl a (stringLess_trans h h2)

theorem sortReverse_perm (paths : List String) : (sortReverse paths).Perm paths :=
  List.perm_insertionSort _ paths

theorem sortReverse_sorted (paths : List String) :
    (sortReverse paths).Sorted (fun a b => ¬ stringLess a b) := by
  haveI : IsTotal String (fun a b => ¬ stringLess a b) :=
    ⟨fun a b => by
      by_cases h : stringLess a b
      · exact Or.inr (stringLess_asymm h)
      · exact Or.inl h⟩
  haveI : IsTrans String (fun a b => ¬ stringLess a b) :=
    ⟨fun a b c hab hbc hac => by
      rcases stringLess_trichotomy a b with h | h | h
      · exact hab h
      · subst h
        exact hbc hac
      · exact hbc (stringLess_trans h hac)⟩
  exact List.sorted_insertionSort _ paths

theorem sortReverse_strict (paths : List String) (hnd : paths.Nodup) :
    (sortReverse paths).Sorted (fun a b => stringLess b a) := by
  have h1 := sortReverse_sorted paths
  have h2 : (sortReverse paths).Nodup := (sortReverse_perm paths).nodup_iff.mpr hnd
  have h3 := List.Pairwise.and h1 h2
  refine h3.imp ?_
  intro a b hab
  rcases stringLess_trichotomy a b with h | h | h
  · exact absurd h hab.1
  · exact absurd h hab.2
  · exact h

/-- C8. Ordering (P6): in listing mode, for every size table and every order
in which its keys are enumerated, the output has exactly one line per key of
the table; the paths of the lines are a permutation of the keys, and each path
is strictly greater, in the byte-wise order of strings, than every path that
comes after it. -/
theorem listing_order (cfg : Config) (t : Table) (ranged : List String)
    (hnd : (mapKeys t).Nodup) (hperm : ranged.Perm (mapKeys t)) :
    ∃ (paths : List String) (width : Nat),
      listing cfg t ranged = paths.map (fun p => lenStr width p (fmtMegs cfg (mapIndex t p))) ∧
      paths.Perm (mapKeys t) ∧ paths.Sorted (fun a b => stringLess b a) ∧
      (listing cfg t ranged).length = (mapKeys t).length := by
  refine ⟨sortReverse ranged, (if !cfg.Align then 0 else (collectPaths ranged).2) + 1, ?_,
    (sortReverse_perm ranged).trans hperm,
    sortReverse_strict ranged (hperm.nodup_iff.mpr hnd), ?_⟩
  · simp [listing, collectPaths_fst]
  · simp only [listing, collectPaths_fst, List.length_map]
    exact ((sortReverse_perm ranged).trans hperm).length_eq

/-- A table with the keys `root/sub` and `root`, enumerated the other way
round, is listed with `root/sub` first. -/
theorem listing_order_witness :
    ∃ (paths : List String) (width : Nat),
      listing plainConfig [("root/sub", 2097152), ("root", 2097152)] ["root", "root/sub"] =
        paths.map (fun p => lenStr width p
          (fmtMegs plainConfig (mapIndex [("root/sub", 2097152), ("root", 2097152)] p))) ∧
      paths.Perm ["root/sub", "root"] ∧ paths.Sorted (fun a b => stringLess b a) ∧
      (listing plainConfig [("root/sub", 2097152), ("root", 2097152)]
        ["root", "root/sub"]).length = 2 :=
  listing_order plainConfig [("root/sub", 2097152), ("root", 2097152)] ["root", "root/sub"]
    (by decide) (by decide)

theorem utf8ByteSize_go_ge (l : List Char) : l.length ≤ String.utf8ByteSize.go l := by
  induction l with
  | nil => simp [String.utf8ByteSize.go]
  | cons c rest ih =>
    simp only [String.utf8ByteSize.go, List.length_cons]
    have := Char.utf8Size_pos c
    omega

theorem length_le_utf8ByteSize (p : String) : p.length ≤ p.utf8ByteSize := by
  cases p with
  | mk d => exact utf8ByteSize_go_ge d

theorem maxLen_foldl (l : List String) (m : Nat) :
    let r := l.foldl (fun m k => if m < k.utf8ByteSize then k.utf8ByteSize else m) m
    m ≤ r ∧ (∀ k ∈ l, k.utf8ByteSize ≤ r) ∧ (r = m ∨ ∃ k ∈ l, k.utf8ByteSize = r) := by
  induction l generalizing m with
  | nil => simp
  | cons k rest ih =>
    simp only [List.foldl_cons]
    by_cases hm : m < k.utf8ByteSize
    · simp only [if_pos hm]
      obtain ⟨h1, h2, h3⟩ := ih k.utf8ByteSize
      refine ⟨by omega, ?_, ?_⟩
      · intro x hx
        simp only [List.mem_cons] at hx
        rcases hx with hx | hx
        · subst hx
          exact h1
        · exact h2 x hx
      · rcases h3 with h3 | ⟨x, hx, h3⟩
        · exact Or.inr ⟨k, by simp, h3.symm⟩
        · exact Or.inr ⟨x, by simp [hx], h3⟩
    · simp only [if_neg hm]
      obtain ⟨h1, h2, h3⟩ := ih m
      refine ⟨h1, ?_, ?_⟩
      · intro x hx
        simp only [List.mem_cons] at hx
        rcases hx with hx | hx
        · subst hx
          omega
        · exact h2 x hx
      · rcases h3 with h3 | ⟨x, hx, h3⟩
        · exact Or.inl h3
        · exact Or.inr ⟨x, by simp [hx], h3⟩

theorem collectPaths_snd (l : List String) :
    (∀ k ∈ l, k.utf8ByteSize ≤ (collectPaths l).2) ∧
      ((collectPaths l).2 = 0 ∨ ∃ k ∈ l, k.utf8ByteSize = (collectPaths l).2) := by
  have h := maxLen_foldl l 0
  simp only [collectPaths, collectPaths_foldl]
  exact h.2

theorem padRight_length (p : String) (w : Nat) (h : p.length ≤ w) :
    (padRight p w).length = w := by
  simp only [padRight, String.length_append, String.length_mk, List.length_replicate]
  omega

theorem padRight_of_le (p : String) (w : Nat) (h : w ≤ p.length) : padRight p w = p := by
  simp only [padRight, Nat.sub_eq_zero_of_le h, List.replicate_zero]
  exact String.append_empty p

/-- C9. Listing line layout: in listing mode the output has, for every key `p`
of the table, the line made of `p` padded with spaces on the right to the width
`maxLen + 1`, then ` -- `, then the formatted value of the table at `p`, then a
newline, and it has no other line; `maxLen` is the greatest length of a key
when align is set and 0 when it is not.  So with align set the padded path has
`maxLen + 1` characters on every line, the separator starting at the same
column, and with align not set a path that is not empty is followed by the
separator at once. -/
theorem listing_layout (cfg : Config) (t : Table) (ranged : List String)
    (hperm : ranged.Perm (mapKeys t)) :
    ∃ maxLen : Nat,
      (∀ line, line ∈ listing cfg t ranged ↔ ∃ p ∈ mapKeys t,
        line = p ++ String.mk (List.replicate (maxLen + 1 - p.length) ' ') ++ " -- "
          ++ fmtMegs cfg (mapIndex t p) ++ "\n") ∧
      (cfg.Align = true →
        (∀ k ∈ mapKeys t, k.utf8ByteSize ≤ maxLen) ∧
        (maxLen = 0 ∨ ∃ k ∈ mapKeys t, k.utf8ByteSize = maxLen) ∧
        ∀ p ∈ mapKeys t,
          (p ++ String.mk (List.replicate (maxLen + 1 - p.length) ' ')).length = maxLen + 1) ∧
      (cfg.Align = false →
        maxLen = 0 ∧
        ∀ p ∈ mapKeys t, p ≠ "" →
          p ++ String.mk (List.replicate (maxLen + 1 - p.length) ' ') = p) := by
  obtain ⟨hle, hmax⟩ := collectPaths_snd ranged
  refine ⟨if !cfg.Align then 0 else (collectPaths ranged).2, ?_, ?_, ?_⟩
  · intro line
    simp only [listing, collectPaths_fst, List.mem_map, lenStr, padRight]
    constructor
    · rintro ⟨p, hp, rfl⟩
      exact ⟨p, hperm.subset ((sortReverse_perm ranged).subset hp), rfl⟩
    · rintro ⟨p, hp, rfl⟩
      exact ⟨p, (sortReverse_perm ranged).symm.subset (hperm.symm.subset hp), rfl⟩
  · intro ha
    simp only [ha, Bool.not_true, Bool.false_eq_true, if_false]
    refine ⟨fun k hk => hle k (hperm.symm.subset hk), ?_, ?_⟩
    · rcases hmax with h | ⟨k, hk, h⟩
      · exact Or.inl h
      · exact Or.inr ⟨k, hperm.subset hk, h⟩
    · intro p hp
      have h1 := hle p (hperm.symm.subset hp)
      have h2 := length_le_utf8ByteSize p
      exact padRight_length p _ (by omega)
  · intro ha
    simp only [ha, Bool.not_false, if_true, true_and]
    intro p _ hne
    have h0 : 0 < p.length := by
      cases p with
      | mk d =>
        cases d with
        | nil => exact absurd rfl hne
        | cons c cs => simp [String.length]
    exact padRight_of_le p _ (by omega)

/-- The table of scenario B listed with align set: both paths are padded to
nine characters, one more than the length of `root/sub`. -/
theorem listing_layout_witness :
    listing alignConfig [("root/sub", 2097152), ("root", 2097152)] ["root", "root/sub"] =
        ["root/sub  --     2.00 MB\n", "root      --     2.00 MB\n"] ∧
      ∃ maxLen : Nat,
        (∀ line, line ∈ listing alignConfig [("root/sub", 2097152), ("root", 2097152)]
            ["root", "root/sub"] ↔
          ∃ p ∈ mapKeys [("root/sub", 2097152), ("root", 2097152)],
            line = p ++ String.mk (List.replicate (maxLen + 1 - p.length) ' ') ++ " -- "
              ++ fmtMegs alignConfig (mapIndex [("root/sub", 2097152), ("root", 2097152)] p)
              ++ "\n") ∧
        (∀ k ∈ mapKeys [("root/sub", 2097152), ("root", 2097152)], k.utf8ByteSize ≤ maxLen) := by
  refine ⟨by decide, ?_⟩
  obtain ⟨m, h1, h2, _⟩ := listing_layout alignConfig [("root/sub", 2097152), ("root", 2097152)]
    ["root", "root/sub"] (by decide)
  exact ⟨m, h1, (h2 rfl).1⟩

theorem records_keys (cfg : Config) (l : List Visit) :
    (records cfg l).map Prod.fst = (l.filter (fun v => v.listing.isSome)).map Visit.key := by
  induction l with
  | nil => simp [records]
  | cons v rest ih =>
    have h : records cfg (v :: rest) = records cfg [v] ++ records cfg rest :=
      records_append cfg [v] rest
    rw [h, List.map_append, ih]
    cases hl : v.listing with
    | none => simp [records, hl, List.filter_cons]
    | some c => simp [records, hl, List.filter_cons]

theorem mem_visited {cfg : Config} {root : String} {fs : Dir} {v : Visit} :
    v ∈ visited cfg root fs ↔ v ∈ fs.census cfg root true ∧ v.listing.isSome = true := by
  simp [visited, List.mem_filter]

/-- C10. One table entry per visited directory: after a scan of a directory
tree that returns without error, the keys of the size table are, in order, the
paths of the directories that the scanner got to and listed, one key for each;
the root is there under the root path as given and a subdirectory under the
join of the path of its parent and its name; no two of these directories have
the same key, and the table has as many entries as there are such
directories. -/
theorem table_entries (cfg : Config) (root : String) (fs : Dir) (hwf : fs.wellFormed = true)
    (n : Int) (t : Table) (hscan : scanDirectory cfg root fs [] = some ((n, none), t)) :
    mapKeys t = (visited cfg root fs).map Visit.key ∧
      ((visited cfg root fs).map Visit.key).Nodup ∧
      t.length = (visited cfg root fs).length ∧
      (∀ c, fs = .listed c → (⟨root, true, fs⟩ : Visit) ∈ visited cfg root fs) ∧
      ∀ v ∈ visited cfg root fs, ∀ c, v.dir = .listed c →
        ∀ p ∈ c.children, skips cfg p.1 = false → ∀ c1, p.2 = .listed c1 →
          (⟨Join v.key p.1, true, p.2⟩ : Visit) ∈ visited cfg root fs := by
  obtain ⟨_, _, ht⟩ := scanDirectory_no_error cfg fs root [] t n
    (fun _ => dir_named_of_wellFormed fs hwf) hscan
  have hnd : ((visited cfg root fs).map Visit.key).Nodup := by
    have := records_keys_nodup cfg _ (dir_census_nodup cfg fs root true hwf)
    rwa [records_keys] at this
  have hkeys : mapKeys t = (visited cfg root fs).map Visit.key := by
    rw [ht, mapKeys_assignAll]
    · simp [mapKeys, records_keys, visited]
    · simpa [mapKeys, records_keys, visited] using hnd
  refine ⟨hkeys, hnd, ?_, ?_, ?_⟩
  · have := congrArg List.length hkeys
    simpa [mapKeys] using this
  · intro c hc
    rw [mem_visited]
    exact ⟨dir_census_root cfg fs root true, by simp [Visit.listing, hc]⟩
  · intro v hv c hc p hp hs c1 hc1
    rw [mem_visited] at hv ⊢
    obtain ⟨c2, hc2⟩ := Option.isSome_iff_exists.mp hv.2
    have hr := (Visit.listing_eq_some.mp hc2).1
    have := dir_census_children cfg fs root true v hv.1 c hc p hp
    simp only [hr, hs, Bool.not_false, Bool.and_true] at this
    exact ⟨this, by simp [Visit.listing, hc1]⟩

/-- The start directory `.` with one subdirectory `a`: the table has the two
keys `a` and `.`, the subdirectory being keyed `a`. -/
theorem table_entries_witness :
    scanDirectory plainConfig "." oneSubdir [] = some ((0, none), [("a", 0), (".", 0)]) ∧
      Join "." "a" = "a" ∧
      mapKeys [("a", 0), (".", 0)] = (visited plainConfig "." oneSubdir).map Visit.key ∧
      (List.length [(("a" : String), (0 : Int)), (".", 0)]) =
        (visited plainConfig "." oneSubdir).length :=
  ⟨by decide, by decide,
    (table_entries plainConfig "." oneSubdir (by decide) 0 [("a", 0), (".", 0)] (by decide)).1,
    (table_entries plainConfig "." oneSubdir (by decide) 0 [("a", 0), (".", 0)]
      (by decide)).2.2.1⟩

/-! ## The size formatter -/

theorem MEGABYTE_eq : MEGABYTE = 1048576 := by
  simp [MEGABYTE, KILOBYTE, BYTE]

theorem roundHalfEven_bound (num : Nat) :
    2 * (roundHalfEven num 1048576 * 1048576) ≤ 2 * num + 1048576 ∧
      2 * num ≤ 2 * (roundHalfEven num 1048576 * 1048576) + 1048576 := by
  unfold roundHalfEven
  simp only
  split <;> omega

theorem float64OfInt64_exact (b : Int) (h : b.natAbs < 2 ^ 53) : float64OfInt64 b = b := by
  have hs : ((List.range 11).filter (fun i => 2 ^ (53 + i) ≤ b.natAbs)) = [] := by
    rw [List.filter_eq_nil_iff]
    intro i _
    have : 2 ^ 53 ≤ 2 ^ (53 + i) := Nat.pow_le_pow_right (by decide) (by omega)
    simp only [decide_eq_true_eq, not_le]
    omega
  unfold float64OfInt64
  simp only [hs, List.length_nil, pow_zero, Nat.div_one, Nat.mod_one, mul_zero, mul_one]
  have hc : ¬ ((1 : Nat) < 0 ∨ 0 = 1 ∧ b.natAbs % 2 = 1) := by omega
  rw [if_neg hc]
  by_cases hb : b < 0
  · rw [if_pos hb]
    omega
  · rw [if_neg hb]
    omega

theorem float64OfInt64_nonneg (b : Int) (h : 0 ≤ b) : 0 ≤ float64OfInt64 b := by
  unfold float64OfInt64
  simp only
  rw [if_neg (by omega)]
  positivity

theorem toString_digit_length (d : Nat) (h : d < 10) : (toString d).length = 1 := by
  interval_cases d <;> rfl

theorem fmtMegs_plain (cfg : Config) (b : Int) (ha : cfg.Align = false) (hb : 0 ≤ b) :
    fmtMegs cfg b =
      toString (roundHalfEven ((float64OfInt64 b).natAbs * 100) 1048576 / 100) ++ "."
        ++ toString (roundHalfEven ((float64OfInt64 b).natAbs * 100) 1048576 / 10 % 10)
        ++ toString (roundHalfEven ((float64OfInt64 b).natAbs * 100) 1048576 % 10) ++ " MB" := by
  have hneg : decide (b < 0) = false := by simp; omega
  simp only [fmtMegs, ha, formatFixed2, hneg, MEGABYTE_eq, Bool.false_eq_true, if_false,
    String.empty_append]

/-- C11, as stated, fails: the byte count 9007199254872065, which is above
`2^53`, is printed as `8589934592.12 MB`, and this numeral is more than 0.005
below the exact quotient by 1048576. -/
theorem fmtMegs_bound_counterexample :
    fmtMegs plainConfig 9007199254872065 = "8589934592.12 MB" ∧
      (1 : ℚ) / 200 < 9007199254872065 / 1048576 - 858993459212 / 100 := by
  refine ⟨by decide, by norm_num⟩

/-- C11, amended. With align not set, for every byte count `b` that is not
negative, `fmtMegs b` is a decimal numeral with exactly two digits after the
decimal point, followed at once by ` MB`; the numeral differs by at most 0.005
from `float64(b)` divided by 1048576, and `float64(b)` is `b` itself below
`2^53`, so that there the numeral differs by at most 0.005 from the exact
quotient. -/
theorem fmtMegs_value (cfg : Config) (b : Int) (ha : cfg.Align = false) (hb : 0 ≤ b) :
    ∃ n d1 d2 : Nat, d1 < 10 ∧ d2 < 10 ∧
      (toString d1).length = 1 ∧ (toString d2).length = 1 ∧
      fmtMegs cfg b = toString n ++ "." ++ toString d1 ++ toString d2 ++ " MB" ∧
      |((100 * n + 10 * d1 + d2 : ℚ) / 100) - (float64OfInt64 b : ℚ) / 1048576| ≤ 1 / 200 ∧
      (b < 2 ^ 53 →
        float64OfInt64 b = b ∧
        |((100 * n + 10 * d1 + d2 : ℚ) / 100) - (b : ℚ) / 1048576| ≤ 1 / 200) := by
  obtain ⟨h1, h2⟩ := roundHalfEven_bound ((float64OfInt64 b).natAbs * 100)
  generalize hH : roundHalfEven ((float64OfInt64 b).natAbs * 100) 1048576 = H at h1 h2
  have hd1 : H / 10 % 10 < 10 := Nat.mod_lt _ (by decide)
  have hd2 : H % 10 < 10 := Nat.mod_lt _ (by decide)
  have hF : ((float64OfInt64 b).natAbs : Int) = float64OfInt64 b :=
    Int.natAbs_of_nonneg (float64OfInt64_nonneg b hb)
  have hsum : 100 * (H / 100) + 10 * (H / 10 % 10) + H % 10 = H := by omega
  have hq : ((100 * (H / 100 : Nat) + 10 * (H / 10 % 10 : Nat) + (H % 10 : Nat) : ℚ)) = (H : ℚ) := by
    exact_mod_cast hsum
  have hbound : |((H : ℚ) / 100) - (float64OfInt64 b : ℚ) / 1048576| ≤ 1 / 200 := by
    have hFq : ((float64OfInt64 b).natAbs : ℚ) = (float64OfInt64 b : ℚ) := by
      rw [← Int.cast_natCast, hF]
    have q1 : (2 * (H * 1048576) : ℚ) ≤ 2 * ((float64OfInt64 b).natAbs * 100) + 1048576 := by
      exact_mod_cast h1
    have q2 : (2 * ((float64OfInt64 b).natAbs * 100) : ℚ) ≤ 2 * (H * 1048576) + 1048576 := by
      exact_mod_cast h2
    rw [hFq] at q1 q2
    rw [abs_le]
    constructor <;> linarith
  refine ⟨H / 100, H / 10 % 10, H % 10, hd1, hd2, toString_digit_length _ hd1,
    toString_digit_length _ hd2, ?_, ?_, ?_⟩
  · rw [fmtMegs_plain cfg b ha hb, hH]
  · rw [hq]
    exact hbound
  · intro hlt
    have hex : float64OfInt64 b = b := float64OfInt64_exact b (by omega)
    refine ⟨hex, ?_⟩
    rw [hq]
    rw [hex] at hbound
    exact hbound

/-- Scenario A: 1,048,576 bytes are printed as `1.00 MB`. -/
theorem fmtMegs_value_witness :
    fmtMegs plainConfig 1048576 = "1.00 MB" ∧
      ∃ n d1 d2 : Nat, d1 < 10 ∧ d2 < 10 ∧
        (toString d1).length = 1 ∧ (toString d2).length = 1 ∧
        fmtMegs plainConfig 1048576 = toString n ++ "." ++ toString d1 ++ toString d2 ++ " MB" ∧
        |((100 * n + 10 * d1 + d2 : ℚ) / 100) - (float64OfInt64 1048576 : ℚ) / 1048576|
          ≤ 1 / 200 ∧
        ((1048576 : Int) < 2 ^ 53 →
          float64OfInt64 1048576 = 1048576 ∧
          |((100 * n + 10 * d1 + d2 : ℚ) / 100) - ((1048576 : Int) : ℚ) / 1048576| ≤ 1 / 200) :=
  ⟨by decide, fmtMegs_value plainConfig 1048576 rfl (by decide)⟩

/-- C12, the code at the failing input: with align set, 0 bytes are printed in
a field of eight characters but 107,374,182,400 bytes (100 GiB) need nine, so
the two strings differ in length and the sizes of a listing that holds both do
not line up. -/
theorem fmtMegs_width_failing :
    fmtMegs alignConfig 0 = "    0.00 MB" ∧
      fmtMegs alignConfig 107374182400 = "102400.00 MB" ∧
      (fmtMegs alignConfig 0).length = 11 ∧
      (fmtMegs alignConfig 107374182400).length = 12 ∧
      listing alignConfig [("big", 107374182400), ("sub", 0)] ["big", "sub"] =
        ["sub  --     0.00 MB\n", "big  -- 102400.00 MB\n"] := by
  refine ⟨by decide, by decide, by decide, by decide, by decide⟩

theorem sortReverse_congr {r1 r2 : List String} (h : r1.Perm r2) :
    sortReverse r1 = sortReverse r2 := by
  haveI : IsAntisymm String (fun a b => ¬ stringLess a b) :=
    ⟨fun a b hab hba => by
      rcases stringLess_trichotomy a b with h1 | h1 | h1
      · exact absurd h1 hab
      · exact h1
      · exact absurd h1 hba⟩
  exact List.eq_of_perm_of_sorted
    (((sortReverse_perm r1).trans h).trans (sortReverse_perm r2).symm)
    (sortReverse_sorted r1) (sortReverse_sorted r2)

theorem collectPaths_snd_congr {r1 r2 : List String} (h : r1.Perm r2) :
    (collectPaths r1).2 = (collectPaths r2).2 := by
  obtain ⟨h1, h2⟩ := collectPaths_snd r1
  obtain ⟨h3, h4⟩ := collectPaths_snd r2
  apply Nat.le_antisymm
  · rcases h2 with h2 | ⟨k, hk, h2⟩
    · omega
    · rw [← h2]
      exact h3 k (h.subset hk)
  · rcases h4 with h4 | ⟨k, hk, h4⟩
    · omega
    · rw [← h4]
      exact h1 k (h.symm.subset hk)

theorem listing_congr (cfg : Config) (t : Table) {r1 r2 : List String} (h : r1.Perm r2) :
    listing cfg t r1 = listing cfg t r2 := by
  simp only [listing, collectPaths_fst, sortReverse_congr h, collectPaths_snd_congr h]

/-- C13. Determinism (P2): the scan is a function of the configuration, the
start path and the tree, so that two runs over the same tree build the same
size table; and whatever the orders in which the two runs enumerate the keys of
that table, they leave the same output, line for line.  In particular the
listing of a table does not depend on the order in which its keys are
enumerated. -/
theorem run_deterministic (cfg : Config) (args : List String) (fs : Dir)
    (order1 order2 : Table → List String)
    (h1 : ∀ t, (order1 t).Perm (mapKeys t)) (h2 : ∀ t, (order2 t).Perm (mapKeys t)) :
    (∀ run1 run2, scanDirectory cfg (startDir args) fs [] = some run1 →
        scanDirectory cfg (startDir args) fs [] = some run2 →
        run1.1 = run2.1 ∧ run1.2 = run2.2) ∧
      main cfg args fs order1 = main cfg args fs order2 ∧
      ∀ (t : Table) (r1 r2 : List String), r1.Perm (mapKeys t) → r2.Perm (mapKeys t) →
        listing cfg t r1 = listing cfg t r2 := by
  refine ⟨?_, ?_, ?_⟩
  · intro run1 run2 hr1 hr2
    rw [hr1] at hr2
    simp only [Option.some.injEq] at hr2
    rw [hr2]
    exact ⟨rfl, rfl⟩
  · unfold main
    cases scanDirectory cfg (startDir args) fs [] with
    | none => rfl
    | some r =>
      obtain ⟨⟨n, e⟩, t⟩ := r
      cases e with
      | some err => rfl
      | none =>
        simp only
        rw [listing_congr cfg t ((h1 t).trans (h2 t).symm)]
  · intro t r1 r2 hr1 hr2
    exact listing_congr cfg t (hr1.trans hr2.symm)

/-- Scenario B listed by two runs, one enumerating the keys as they were
recorded and one in the opposite order: the output is the same. -/
theorem run_deterministic_witness :
    main alignConfig ["dirsize", "root"] scenarioB mapKeys =
        main alignConfig ["dirsize", "root"] scenarioB (fun t => (mapKeys t).reverse) ∧
      main alignConfig ["dirsize", "root"] scenarioB mapKeys =
        some ⟨["root/sub  --     2.00 MB\n", "root      --     2.00 MB\n"], none⟩ :=
  ⟨(run_deterministic alignConfig ["dirsize", "root"] scenarioB mapKeys
    (fun t => (mapKeys t).reverse) (fun _ => List.Perm.refl _)
    (fun t => List.reverse_perm (mapKeys t))).2.1, by decide⟩

/-! ## The table after a failure -/

theorem takeWhile_append_of_exists {α : Type} (p : α → Bool) (a b : List α)
    (h : ∃ x ∈ a, p x = false) : (a ++ b).takeWhile p = a.takeWhile p := by
  induction a with
  | nil => simp at h
  | cons x rest ih =>
    simp only [List.cons_append, List.takeWhile_cons]
    cases hx : p x with
    | false => rfl
    | true =>
      simp only [if_true]
      rw [ih]
      obtain ⟨y, hy, hpy⟩ := h
      simp only [List.mem_cons] at hy
      rcases hy with hy | hy
      · subst hy
        rw [hx] at hpy
        simp at hpy
      · exact ⟨y, hy, hpy⟩

theorem dropWhile_append_of_exists {α : Type} (p : α → Bool) (a b : List α)
    (h : ∃ x ∈ a, p x = false) : (a ++ b).dropWhile p = a.dropWhile p ++ b := by
  induction a with
  | nil => simp at h
  | cons x rest ih =>
    simp only [List.cons_append, List.dropWhile_cons]
    cases hx : p x with
    | false => rfl
    | true =>
      simp only [if_true]
      rw [ih]
      obtain ⟨y, hy, hpy⟩ := h
      simp only [List.mem_cons] at hy
      rcases hy with hy | hy
      · subst hy
        rw [hx] at hpy
        simp at hpy
      · exact ⟨y, hy, hpy⟩

theorem unreached_failure {v : Visit} (h : v.reached = false) : v.failure = none := by
  obtain ⟨k, r, d⟩ := v
  simp only at h
  subst h
  rfl

theorem dir_census_sound (cfg : Config) (d : Dir) (path : String) (h : d.failures cfg = []) :
    ∀ v ∈ d.census cfg path true, v.failure.isNone = true := by
  intro v hv
  cases hf : v.failure with
  | none => rfl
  | some e =>
    have := (dir_failures_census cfg e d path true).mp ⟨v, hv, hf⟩
    rw [h] at this
    simp at this

theorem content_census_sound (cfg : Config) (c : Content) (path : String)
    (h : c.failures cfg = []) : ∀ v ∈ c.census cfg path true, v.failure.isNone = true := by
  intro v hv
  cases hf : v.failure with
  | none => rfl
  | some e =>
    have := (content_failures_census cfg e c path true).mp ⟨v, hv, hf⟩
    rw [h] at this
    simp at this

theorem dir_census_failing (cfg : Config) (d : Dir) (path : String) (e : Error)
    (es : List Error) (h : d.failures cfg = e :: es) :
    ∃ v ∈ d.census cfg path true, v.failure.isNone = false := by
  obtain ⟨v, hv, hf⟩ := (dir_failures_census cfg e d path true).mpr ⟨rfl, by simp [h]⟩
  exact ⟨v, hv, by simp [hf]⟩

theorem content_census_failing (cfg : Config) (c : Content) (path : String) (e : Error)
    (es : List Error) (h : c.failures cfg = e :: es) :
    ∃ v ∈ c.census cfg path true, v.failure.isNone = false := by
  obtain ⟨v, hv, hf⟩ := (content_failures_census cfg e c path true).mpr ⟨rfl, by simp [h]⟩
  exact ⟨v, hv, by simp [hf]⟩

mutual
theorem scanDirectory_halted (cfg : Config) (hi : cfg.IgnoreErrors = false) :
    ∀ (d : Dir) (path : String) (t : Table) (e : Error) (es : List Error),
      (cfg.IgnoreDotFiles = true → d.named = true) → d.failures cfg = e :: es →
      scanDirectory cfg path d t = some ((0, some e),
        assignAll t (records cfg ((d.census cfg path true).takeWhile
          (fun v => v.failure.isNone))))
  | .unreadable err, path, t, e, es => by
    intro _ hf
    simp only [Dir.failures, List.cons.injEq] at hf
    simp [scanDirectory, hi, hf.1, Dir.census, Visit.failure, records, assignAll]
  | .listed c, path, t, e, es => by
    intro hn hf
    have hf1 : c.failures cfg = e :: es := by simpa [Dir.failures] using hf
    have h := scanLoop_halted cfg hi c path 0 t e es (by simpa [Dir.named] using hn) hf1
    simp only [scanDirectory, h, Dir.census]
    rw [takeWhile_append_of_exists _ _ _ (content_census_failing cfg c path e es hf1)]
theorem scanLoop_halted (cfg : Config) (hi : cfg.IgnoreErrors = false) :
    ∀ (c : Content) (path : String) (acc : Int) (t : Table) (e : Error) (es : List Error),
      (cfg.IgnoreDotFiles = true → c.named = true) → c.failures cfg = e :: es →
      scanLoop cfg path c acc t = some (.error e,
        assignAll t (records cfg ((c.census cfg path true).takeWhile
          (fun v => v.failure.isNone))))
  | .nil, path, acc, t, e, es => by
    intro _ hf
    simp [Content.failures] at hf
  | .file name size rest, path, acc, t, e, es => by
    intro hn hf
    have hname : cfg.IgnoreDotFiles = true → name.data ≠ [] := fun hc => by
      have := hn hc
      simp only [Content.named, Bool.and_eq_true, decide_eq_true_eq] at this
      exact this.1
    have hn1 : cfg.IgnoreDotFiles = true → rest.named = true := fun hc => by
      have := hn hc
      simp only [Content.named, Bool.and_eq_true, decide_eq_true_eq] at this
      exact this.2
    simp only [Content.failures] at hf
    simp only [scanLoop, dotCheck_eq cfg name hname, Content.census]
    cases hs : skips cfg name with
    | true => exact scanLoop_halted cfg hi rest path _ t e es hn1 hf
    | false => exact scanLoop_halted cfg hi rest path _ t e es hn1 hf
  | .subdir name size d rest, path, acc, t, e, es => by
    intro hn hf
    have hname : cfg.IgnoreDotFiles = true → name.data ≠ [] := fun hc => by
      have := hn hc
      simp only [Content.named, Bool.and_eq_true, decide_eq_true_eq] at this
      exact this.1.1
    have hn1 : cfg.IgnoreDotFiles = true → rest.named = true := fun hc => by
      have := hn hc
      simp only [Content.named, Bool.and_eq_true, decide_eq_true_eq] at this
      exact this.2
    have hn2 : cfg.IgnoreDotFiles = true → d.named = true := fun hc => by
      have := hn hc
      simp only [Content.named, Bool.and_eq_true, decide_eq_true_eq] at this
      exact this.1.2
    simp only [Content.failures] at hf
    simp only [scanLoop, dotCheck_eq cfg name hname, Content.census]
    cases hs : skips cfg name with
    | true =>
      simp only [hs, if_true, List.nil_append] at hf
      simp only [Bool.not_true, Bool.and_false]
      rw [List.takeWhile_append_of_pos
        (fun v hv => by simp [unreached_failure (dir_census_unreached cfg d _ v hv)]),
        records_append, records_unreached cfg _ (dir_census_unreached cfg d _),
        List.nil_append]
      exact scanLoop_halted cfg hi rest path _ t e es hn1 hf
    | false =>
      simp only [hs, Bool.false_eq_true, if_false] at hf
      simp only [Bool.not_false, Bool.and_true]
      cases hd : d.failures cfg with
      | nil =>
        rw [hd, List.nil_append] at hf
        simp only [scanDirectory_ok cfg d (Join path name) t hn2 (Or.inr hd)]
        rw [List.takeWhile_append_of_pos (dir_census_sound cfg d _ hd), records_append,
          assignAll_append]
        exact scanLoop_halted cfg hi rest path _ _ e es hn1 hf
      | cons e1 es1 =>
        rw [hd] at hf
        simp only [List.cons_append, List.cons.injEq] at hf
        rw [scanDirectory_halted cfg hi d (Join path name) t e1 es1 hn2 hd,
          takeWhile_append_of_exists _ _ _ (dir_census_failing cfg d _ e1 es1 hd)]
        simp [hf.1]
end

mutual
theorem dir_census_failures (cfg : Config) :
    ∀ (d : Dir) (path : String) (r : Bool),
      (d.census cfg path r).filterMap Visit.failure = if r then d.failures cfg else []
  | .unreadable err, path, r => by
    cases r <;> simp [Dir.census, Visit.failure, Dir.failures]
  | .listed c, path, r => by
    simp only [Dir.census, List.filterMap_append, content_census_failures cfg c path r,
      Dir.failures]
    cases r <;> simp [Visit.failure]
theorem content_census_failures (cfg : Config) :
    ∀ (c : Content) (path : String) (r : Bool),
      (c.census cfg path r).filterMap Visit.failure = if r then c.failures cfg else []
  | .nil, path, r => by
    cases r <;> simp [Content.census, Content.failures]
  | .file _ _ rest, path, r => by
    simp only [Content.census, Content.failures]
    exact content_census_failures cfg rest path r
  | .subdir name _ d rest, path, r => by
    simp only [Content.census, List.filterMap_append, Content.failures,
      dir_census_failures cfg d (Join path name) (r && !skips cfg name),
      content_census_failures cfg rest path r]
    cases r <;> cases skips cfg name <;> simp
end

mutual
theorem dir_census_segment (cfg : Config) :
    ∀ (d : Dir) (path : String) (r : Bool), ∀ v ∈ d.census cfg path r,
      ∃ a b, d.census cfg path r = a ++ v.dir.census cfg v.key v.reached ++ b
  | .unreadable err, path, r => by
    intro v hv
    simp only [Dir.census, List.mem_singleton] at hv
    subst hv
    exact ⟨[], [], by simp [Dir.census]⟩
  | .listed c, path, r => by
    intro v hv
    simp only [Dir.census, List.mem_append, List.mem_singleton] at hv
    rcases hv with hv | hv
    · obtain ⟨a, b, h⟩ := content_census_segment cfg c path r v hv
      exact ⟨a, b ++ [⟨path, r, .listed c⟩], by simp [Dir.census, h]⟩
    · subst hv
      exact ⟨[], [], by simp⟩
theorem content_census_segment (cfg : Config) :
    ∀ (c : Content) (path : String) (r : Bool), ∀ v ∈ c.census cfg path r,
      ∃ a b, c.census cfg path r = a ++ v.dir.census cfg v.key v.reached ++ b
  | .nil, path, r => by simp [Content.census]
  | .file _ _ rest, path, r => by
    intro v hv
    simp only [Content.census] at hv ⊢
    exact content_census_segment cfg rest path r v hv
  | .subdir name _ d rest, path, r => by
    intro v hv
    simp only [Content.census, List.mem_append] at hv ⊢
    rcases hv with hv | hv
    · obtain ⟨a, b, h⟩ := dir_census_segment cfg d _ _ v hv
      exact ⟨a, b ++ rest.census cfg path r, by simp [h]⟩
    · obtain ⟨a, b, h⟩ := content_census_segment cfg rest path r v hv
      exact ⟨d.census cfg (Join path name) (r && !skips cfg name) ++ a, b, by simp [h]⟩
end

theorem dir_census_snoc (cfg : Config) (d : Dir) (path : String) (r : Bool) :
    ∃ init, d.census cfg path r = init ++ [⟨path, r, d⟩] := by
  cases d with
  | unreadable err => exact ⟨[], by simp [Dir.census]⟩
  | listed c => exact ⟨c.census cfg path r, by simp [Dir.census]⟩

theorem mem_dropWhile_snoc {α : Type} (p : α → Bool) (init : List α) (v : α)
    (h : ∃ x ∈ init ++ [v], p x = false) : v ∈ (init ++ [v]).dropWhile p := by
  induction init with
  | nil =>
    obtain ⟨x, hx, hpx⟩ := h
    simp only [List.nil_append, List.mem_singleton] at hx
    subst hx
    simp [List.dropWhile_cons, hpx]
  | cons y rest ih =>
    simp only [List.cons_append, List.dropWhile_cons]
    cases hy : p y with
    | false => simp
    | true =>
      simp only [if_true]
      apply ih
      obtain ⟨x, hx, hpx⟩ := h
      simp only [List.cons_append, List.mem_cons] at hx
      rcases hx with hx | hx
      · subst hx
        rw [hy] at hpx
        simp at hpx
      · exact ⟨x, hx, hpx⟩

theorem dropWhile_head_false {α : Type} (p : α → Bool) (l : List α) (x : α) (rest : List α)
    (h : l.dropWhile p = x :: rest) : p x = false := by
  induction l with
  | nil => simp at h
  | cons y ys ih =>
    simp only [List.dropWhile_cons] at h
    cases hy : p y with
    | false =>
      simp only [hy, Bool.false_eq_true, if_false, List.cons.injEq] at h
      rw [← h.1]
      exact hy
    | true =>
      simp only [hy, if_true] at h
      exact ih h

theorem mapLookup_records_list (cfg : Config) (l : List Visit) (hnd : (l.map Visit.key).Nodup)
    (v : Visit) (hv : v ∈ l) :
    mapLookup (assignAll [] (records cfg l)) v.key =
      (v.listing).map (fun c => wrapInt64 (c.seen cfg)) := by
  cases hl : v.listing with
  | some c =>
    simp only [Option.map_some']
    apply mapLookup_assignAll_mem _ _ _ _ (records_keys_nodup cfg _ hnd)
    rw [records_mem]
    exact ⟨v, hv, c, hl, rfl, rfl⟩
  | none =>
    simp only [Option.map_none']
    rw [mapLookup_assignAll_not_mem]
    · rfl
    · intro hm
      obtain ⟨p, hp, hpk⟩ := List.mem_map.mp hm
      obtain ⟨k, x⟩ := p
      simp only at hpk
      subst hpk
      obtain ⟨w, hw, c, hc, hk, _⟩ := (records_mem cfg _ _ _).mp hp
      have : w = v := List.inj_on_of_nodup_map hnd hw hv hk
      rw [this, hl] at hc
      simp at hc

theorem mapLookup_records_absent (cfg : Config) (l : List Visit) (k : String)
    (h : k ∉ l.map Visit.key) : mapLookup (assignAll [] (records cfg l)) k = none := by
  rw [mapLookup_assignAll_not_mem]
  · rfl
  · intro hm
    exact h ((records_keys_sublist cfg l).subset hm)

/-- C14. Short-circuit on a hard failure: with ignoreErrors not set, when a
listing that the scanner gets to fails, the scan returns the error of the first
such directory X of the depth-first walk.  The directories that the walk had
finished with before X keep in the table what was recorded for them; X itself
and every directory after it in the walk, which includes every directory that X
lies beneath and so the root, have no entry in the table. -/
theorem scan_short_circuit (cfg : Config) (root : String) (fs : Dir)
    (hi : cfg.IgnoreErrors = false) (hwf : fs.wellFormed = true) (e : Error)
    (es : List Error) (hf : fs.failures cfg = e :: es) :
    ∃ (t : Table) (x : Visit) (later : List Visit),
      scanDirectory cfg root fs [] = some ((0, some e), t) ∧
      fs.census cfg root true = completed cfg root fs ++ x :: later ∧
      x.failure = some e ∧
      (∀ v ∈ completed cfg root fs, v.failure = none ∧
        mapLookup t v.key = (v.listing).map (fun c => wrapInt64 (c.seen cfg))) ∧
      (∀ v ∈ x :: later, mapLookup t v.key = none) ∧
      (⟨root, true, fs⟩ : Visit) ∈ x :: later ∧
      (∀ v ∈ fs.census cfg root true, x ∈ v.dir.census cfg v.key v.reached →
        v ∈ x :: later) := by
  have hsplit : completed cfg root fs ++
      (fs.census cfg root true).dropWhile (fun v => v.failure.isNone) =
      fs.census cfg root true := List.takeWhile_append_dropWhile _ _
  have hdone : ∀ v ∈ completed cfg root fs, v.failure.isNone = true := by
    intro v hv
    unfold completed at hv
    have h2 := @List.mem_takeWhile_imp _ (fun v : Visit => v.failure.isNone) _ _ hv
    exact h2
  have hbad := dir_census_failing cfg fs root e es hf
  cases hdw : (fs.census cfg root true).dropWhile (fun v => v.failure.isNone) with
  | nil =>
    rw [hdw, List.append_nil] at hsplit
    obtain ⟨v, hv, hp⟩ := hbad
    rw [← hsplit] at hv
    rw [hdone v hv] at hp
    simp at hp
  | cons x later =>
    rw [hdw] at hsplit
    have hx := dropWhile_head_false _ _ x later hdw
    have hnd := dir_census_nodup cfg fs root true hwf
    rw [← hsplit, List.map_append, List.nodup_append] at hnd
    obtain ⟨hnd1, _, hdisj⟩ := hnd
    have hxe : x.failure = some e := by
      have h1 := dir_census_failures cfg fs root true
      rw [← hsplit, List.filterMap_append, if_pos rfl, hf] at h1
      have h2 : (completed cfg root fs).filterMap Visit.failure = [] := by
        rw [List.filterMap_eq_nil_iff]
        intro v hv
        have := hdone v hv
        cases hvf : v.failure with
        | none => rfl
        | some e1 => simp [hvf] at this
      rw [h2, List.nil_append, List.filterMap_cons] at h1
      cases hxf : x.failure with
      | none => simp [hxf] at hx
      | some e1 =>
        rw [hxf] at h1
        simp only [List.cons.injEq] at h1
        rw [h1.1]
    refine ⟨assignAll [] (records cfg (completed cfg root fs)), x, later,
      scanDirectory_halted cfg hi fs root [] e es (fun _ => dir_named_of_wellFormed fs hwf) hf,
      hsplit.symm, hxe, ?_, ?_, ?_, ?_⟩
    · intro v hv
      refine ⟨?_, mapLookup_records_list cfg _ hnd1 v hv⟩
      have := hdone v hv
      cases hvf : v.failure with
      | none => rfl
      | some e1 => simp [hvf] at this
    · intro v hv
      apply mapLookup_records_absent
      intro hk
      exact hdisj hk (List.mem_map_of_mem _ hv)
    · obtain ⟨init, hinit⟩ := dir_census_snoc cfg fs root true
      have := mem_dropWhile_snoc (fun v : Visit => v.failure.isNone) init ⟨root, true, fs⟩
        (by rw [← hinit]; exact hbad)
      rw [← hinit, hdw] at this
      exact this
    · intro v hv hxv
      obtain ⟨a, b, hab⟩ := dir_census_segment cfg fs root true v hv
      obtain ⟨init, hinit⟩ := dir_census_snoc cfg v.dir v.key v.reached
      have hv1 : v ∈ (a ++ v.dir.census cfg v.key v.reached).dropWhile
          (fun v => v.failure.isNone) := by
        rw [hinit, ← List.append_assoc]
        apply mem_dropWhile_snoc
        rw [List.append_assoc, ← hinit]
        exact ⟨x, List.mem_append_right _ hxv, hx⟩
      have hv2 : (fs.census cfg root true).dropWhile (fun v => v.failure.isNone) =
          (a ++ v.dir.census cfg v.key v.reached).dropWhile (fun v => v.failure.isNone)
            ++ b := by
        rw [hab]
        exact dropWhile_append_of_exists _ _ _ ⟨x, List.mem_append_right _ hxv, hx⟩
      rw [hdw] at hv2
      rw [hv2]
      exact List.mem_append_left _ hv1

/-- A root with a finished subdirectory, then one that cannot be listed, then
one more: the scan returns the error, the table holds the first subdirectory
only, and neither the failed one, nor the one after it, nor the root has an
entry. -/
theorem scan_short_circuit_witness :
    scanDirectory plainConfig "root" scenarioE [] =
        some ((0, some "permission denied"), [("root/done", 5)]) ∧
      ∃ (t : Table) (x : Visit) (later : List Visit),
        scanDirectory plainConfig "root" scenarioE [] = some ((0, some "permission denied"), t) ∧
        scenarioE.census plainConfig "root" true =
          completed plainConfig "root" scenarioE ++ x :: later ∧
        x.failure = some "permission denied" ∧
        (∀ v ∈ x :: later, mapLookup t v.key = none) ∧
        (⟨"root", true, scenarioE⟩ : Visit) ∈ x :: later := by
  refine ⟨by decide, ?_⟩
  obtain ⟨t, x, later, h1, h2, h3, _, h5, h6, _⟩ :=
    scan_short_circuit plainConfig "root" scenarioE rfl (by decide) "permission denied" [] (by decide)
  exact ⟨t, x, later, h1, h2, h3, h5, h6⟩

/-- C15. Return value of the scanner: for every path `dir`, every listing of
`dir` that succeeds and every state of the table before the call, when
`scanDirectory dir` returns `(n, nil)` the table holds right afterwards the key
`dir` with the value `n`. -/
theorem scan_returns_entry (cfg : Config) (dir : String) (c : Content) (t0 t : Table)
    (n : Int) (h : scanDirectory cfg dir (.listed c) t0 = some ((n, none), t)) :
    mapLookup t dir = some n ∧ mapIndex t dir = n := by
  simp only [scanDirectory] at h
  split at h
  · simp at h
  · simp at h
  · simp only [Option.some.injEq, Prod.mk.injEq, and_true] at h
    rw [← h.2, ← h.1]
    simp [mapIndex, mapLookup_mapAssign]

/-- Scenario B: the scan of `root` returns 2,097,152 and the table holds that
value for `root`. -/
theorem scan_returns_entry_witness :
    scanDirectory plainConfig "root" scenarioB [] =
        some ((2097152, none), [("root/sub", 2097152), ("root", 2097152)]) ∧
      mapLookup [("root/sub", 2097152), ("root", 2097152)] "root" = some 2097152 ∧
      mapIndex [("root/sub", 2097152), ("root", 2097152)] "root" = 2097152 :=
  ⟨by decide, scan_returns_entry plainConfig "root"
    (.subdir "sub" 4096 (.listed (.file "data" 2097152 .nil)) .nil) []
    [("root/sub", 2097152), ("root", 2097152)] 2097152 (by decide)⟩

theorem skips_withDots (cfg : Config) (name : String) :
    skips (withDots cfg) name = dotName name := by
  simp [skips, withDots]

theorem skips_withoutDots (cfg : Config) (name : String) :
    skips (withoutDots cfg) name = false := by
  simp [skips, withoutDots]

mutual
theorem dir_seen_prune (cfg : Config) :
    ∀ d : Dir, d.seen (withDots cfg) = d.prune.seen (withoutDots cfg)
  | .unreadable _ => by simp [Dir.seen, Dir.prune]
  | .listed c => by
    simp only [Dir.seen, Dir.prune]
    exact content_seen_prune cfg c
theorem content_seen_prune (cfg : Config) :
    ∀ c : Content, c.seen (withDots cfg) = c.prune.seen (withoutDots cfg)
  | .nil => by simp [Content.seen, Content.prune]
  | .file name size rest => by
    simp only [Content.seen, Content.prune, skips_withDots]
    cases hd : dotName name with
    | true => simp [content_seen_prune cfg rest]
    | false => simp [Content.seen, skips_withoutDots, content_seen_prune cfg rest]
  | .subdir name size d rest => by
    simp only [Content.seen, Content.prune, skips_withDots]
    cases hd : dotName name with
    | true => simp [content_seen_prune cfg rest]
    | false =>
      simp [Content.seen, skips_withoutDots, content_seen_prune cfg rest, dir_seen_prune cfg d]
end

/-- C16. Root asymmetry of the dot-file check: with ignoreDotFiles set, the
path passed to `scanDirectory` is never examined.  Whatever the root path, and
so also when its name starts with a dot, a root that can be listed (the scan
meeting no error) is scanned: the scan returns the sum of what it sees in it,
in which the entries whose names do not start with a dot are counted, and the
table holds an entry with that sum for the root. -/
theorem root_unchecked (cfg : Config) (root : String) (c : Content)
    (hn : c.named = true)
    (hf : cfg.IgnoreErrors = true ∨ c.failures (withDots cfg) = []) :
    ∃ t, scanDirectory (withDots cfg) root (.listed c) [] =
        some ((wrapInt64 (c.seen (withDots cfg)), none), t) ∧
      mapLookup t root = some (wrapInt64 (c.seen (withDots cfg))) ∧
      c.seen (withDots cfg) = c.prune.seen (withoutDots cfg) := by
  have h := scanDirectory_ok (withDots cfg) (.listed c) root []
    (fun _ => by simpa [Dir.named] using hn) (by simpa [Dir.failures, withDots] using hf)
  simp only [Dir.seen] at h
  refine ⟨_, h, ?_, ?_⟩
  · simp only [Dir.census, records_append, assignAll_append]
    simp [records, Visit.listing, assignAll, mapLookup_mapAssign]
  · exact content_seen_prune cfg c

/-- The default root `.` and the root `.config`, both with the files `a` of 3
bytes and `.b` of 4 bytes: the root is scanned, `a` is counted, and the root
has its entry. -/
theorem root_unchecked_witness :
    startDir ["dirsize"] = "." ∧
      scanDirectory dotConfig "." dotChild [] = some ((3, none), [(".", 3)]) ∧
      scanDirectory dotConfig ".config" dotChild [] = some ((3, none), [(".config", 3)]) ∧
      ∃ t, scanDirectory (withDots plainConfig) ".config" dotChild [] =
          some ((wrapInt64 ((Content.file "a" 3 (.file ".b" 4 .nil)).seen
            (withDots plainConfig)), none), t) ∧
        mapLookup t ".config" = some (wrapInt64 ((Content.file "a" 3 (.file ".b" 4 .nil)).seen
          (withDots plainConfig))) ∧
        (Content.file "a" 3 (.file ".b" 4 .nil)).seen (withDots plainConfig) =
          (Content.file "a" 3 (.file ".b" 4 .nil)).prune.seen (withoutDots plainConfig) :=
  ⟨by decide, by decide, by decide,
    root_unchecked plainConfig ".config" (.file "a" 3 (.file ".b" 4 .nil)) (by decide)
      (Or.inr (by decide))⟩

/-- A scan of a tree returns, whatever it returns, when the names of the
entries are not empty or ignoreDotFiles is not set. -/
theorem scanDirectory_returns (cfg : Config) (dir : String) (d : Dir) (t : Table)
    (hn : cfg.IgnoreDotFiles = true → d.named = true) :
    ∃ r, scanDirectory cfg dir d t = some r := by
  cases hi : cfg.IgnoreErrors with
  | true => exact ⟨_, scanDirectory_ok cfg d dir t hn (Or.inl hi)⟩
  | false =>
    cases hf : d.failures cfg with
    | nil => exact ⟨_, scanDirectory_ok cfg d dir t hn (Or.inr hf)⟩
    | cons e es =>
      obtain ⟨t1, h⟩ := scanDirectory_fails cfg hi d dir t e es hn hf
      exact ⟨_, h⟩

/-- C17. Safety of the first-character check: on a tree in which every entry
name is not empty, `scanDirectory` never takes the index of a name out of range
and returns, whether ignoreDotFiles is set or not; with ignoreDotFiles not set
the index is not evaluated for any name, so that the scan returns on every tree,
empty names included; with ignoreDotFiles set, the index fails for an empty
name, and so does the loop whenever the entry it comes to, file or directory,
has an empty name. -/
theorem index_safety (cfg : Config) (dir : String) (fs : Dir) (t : Table) :
    (fs.named = true → ∃ r, scanDirectory cfg dir fs t = some r) ∧
      (∃ r, scanDirectory (withoutDots cfg) dir fs t = some r) ∧
      (∀ name, dotCheck (withoutDots cfg) name = some false) ∧
      dotCheck (withDots cfg) "" = none ∧
      (∀ size rest acc, scanLoop (withDots cfg) dir (.file "" size rest) acc t = none) ∧
      (∀ size d rest acc, scanLoop (withDots cfg) dir (.subdir "" size d rest) acc t = none) := by
  refine ⟨fun hn => scanDirectory_returns cfg dir fs t (fun _ => hn),
    scanDirectory_returns (withoutDots cfg) dir fs t (by simp [withoutDots]),
    dotCheck_withoutDots cfg, rfl, ?_, ?_⟩
  · intro size rest acc
    simp [scanLoop, dotCheck, withDots]
  · intro size d rest acc
    simp [scanLoop, dotCheck, withDots]

/-- A root with a file whose name is empty: the scan returns when
ignoreDotFiles is not set and ends with the index out of range when it is set;
scenario C, whose names are not empty, is scanned in both cases. -/
theorem index_safety_witness :
    scenarioC.named = true ∧
      (∃ r, scanDirectory dotConfig "root" scenarioC [] = some r) ∧
      scanDirectory plainConfig "root" namelessChild [] = some ((1, none), [("root", 1)]) ∧
      scanDirectory dotConfig "root" namelessChild [] = none ∧
      main dotConfig ["dirsize", "root"] namelessChild mapKeys = none :=
  ⟨by decide, (index_safety dotConfig "root" scenarioC []).1 (by decide), by decide, by decide,
    by decide⟩

/-- C19. Failing root under ignoreErrors: with ignoreErrors set, when the
listing of the start directory fails, `scanDirectory` returns `(0, nil)` and
leaves the table empty, without an entry for the root; `main` then writes, in
sum mode, the one line that formats the zero value of the missing key, and in
listing mode no line at all. -/
theorem failing_root (cfg : Config) (args : List String) (err : Error)
    (rangeOrder : Table → List String) (hi : cfg.IgnoreErrors = true)
    (hr : (rangeOrder []).Perm (mapKeys [])) :
    scanDirectory cfg (startDir args) (.unreadable err) [] = some ((0, none), []) ∧
      mapLookup [] (startDir args) = none ∧ mapIndex [] (startDir args) = 0 ∧
      (cfg.Sum = true →
        main cfg args (.unreadable err) rangeOrder = some ⟨[fmtMegs cfg 0 ++ "\n"], none⟩) ∧
      (cfg.Sum = false → main cfg args (.unreadable err) rangeOrder = some ⟨[], none⟩) := by
  have hscan : scanDirectory cfg (startDir args) (.unreadable err) [] = some ((0, none), []) := by
    simp [scanDirectory, hi]
  have hr0 : rangeOrder [] = [] := by
    have := hr.length_eq
    simpa [mapKeys] using this
  refine ⟨hscan, rfl, rfl, ?_, ?_⟩
  · intro hs
    simp [main, hscan, hs, mapIndex, mapLookup]
  · intro hs
    simp [main, hscan, hs, hr0, listing, collectPaths, sortReverse]

/-- A start directory that cannot be listed, with ignoreErrors set: sum mode
writes `0.00 MB` and listing mode writes nothing. -/
theorem failing_root_witness :
    main ⟨false, false, true, true⟩ ["dirsize", "gone"] (.unreadable "no such file") mapKeys =
        some ⟨["0.00 MB\n"], none⟩ ∧
      main lenientConfig ["dirsize", "gone"] (.unreadable "no such file") mapKeys =
        some ⟨[], none⟩ :=
  ⟨(failing_root ⟨false, false, true, true⟩ ["dirsize", "gone"] "no such file" mapKeys rfl
      (List.Perm.refl _)).2.2.2.1 rfl,
    (failing_root lenientConfig ["dirsize", "gone"] "no such file" mapKeys rfl
      (List.Perm.refl _)).2.2.2.2 rfl⟩

/-! ## Sizes that are not negative -/

theorem mapLookup_assignAll_some (l : List (String × Int)) (t : Table) (k : String) (v : Int)
    (h : mapLookup (assignAll t l) k = some v) : mapLookup t k = some v ∨ (k, v) ∈ l := by
  induction l generalizing t with
  | nil => exact Or.inl h
  | cons p rest ih =>
    have hstep : assignAll t (p :: rest) = assignAll (mapAssign t p.1 p.2) rest := rfl
    rw [hstep] at h
    rcases ih _ h with h1 | h1
    · rw [mapLookup_mapAssign] at h1
      by_cases hk : p.1 = k
      · rw [if_pos hk] at h1
        simp only [Option.some.injEq] at h1
        right
        rw [← hk, ← h1]
        simp
      · rw [if_neg hk] at h1
        exact Or.inl h1
    · exact Or.inr (List.mem_cons_of_mem _ h1)

mutual
theorem dir_seen_bounds (cfg : Config) :
    ∀ d : Dir, (∀ s ∈ d.fileSizes, 0 ≤ s) → 0 ≤ d.seen cfg ∧ d.seen cfg ≤ d.fileSizes.sum
  | .unreadable _ => by simp [Dir.seen, Dir.fileSizes]
  | .listed c => by
    intro h
    simp only [Dir.seen, Dir.fileSizes] at h ⊢
    exact content_seen_bounds cfg c h
theorem content_seen_bounds (cfg : Config) :
    ∀ c : Content, (∀ s ∈ c.fileSizes, 0 ≤ s) → 0 ≤ c.seen cfg ∧ c.seen cfg ≤ c.fileSizes.sum
  | .nil => by simp [Content.seen, Content.fileSizes]
  | .file name size rest => by
    intro h
    simp only [Content.fileSizes, List.mem_cons, forall_eq_or_imp] at h
    obtain ⟨h1, h2⟩ := content_seen_bounds cfg rest h.2
    simp only [Content.seen, Content.fileSizes, List.sum_cons]
    have := h.1
    split <;> omega
  | .subdir name _ d rest => by
    intro h
    simp only [Content.fileSizes, List.mem_append] at h
    obtain ⟨h1, h2⟩ := content_seen_bounds cfg rest (fun s hs => h s (Or.inr hs))
    obtain ⟨h3, h4⟩ := dir_seen_bounds cfg d (fun s hs => h s (Or.inl hs))
    simp only [Content.seen, Content.fileSizes, List.sum_append]
    split <;> omega
end

mutual
theorem dir_census_seen_le (cfg : Config) :
    ∀ (d : Dir) (path : String) (r : Bool), (∀ s ∈ d.fileSizes, 0 ≤ s) →
      ∀ v ∈ d.census cfg path r, v.reached = true →
        (∀ s ∈ v.dir.fileSizes, 0 ≤ s) ∧ v.dir.seen cfg ≤ d.seen cfg
  | .unreadable err, path, r => by
    intro h v hv _
    simp only [Dir.census, List.mem_singleton] at hv
    subst hv
    exact ⟨h, le_refl _⟩
  | .listed c, path, r => by
    intro h v hv hr
    simp only [Dir.census, List.mem_append, List.mem_singleton] at hv
    rcases hv with hv | hv
    · simp only [Dir.seen]
      exact content_census_seen_le cfg c path r (by simpa [Dir.fileSizes] using h) v hv hr
    · subst hv
      exact ⟨h, le_refl _⟩
theorem content_census_seen_le (cfg : Config) :
    ∀ (c : Content) (path : String) (r : Bool), (∀ s ∈ c.fileSizes, 0 ≤ s) →
      ∀ v ∈ c.census cfg path r, v.reached = true →
        (∀ s ∈ v.dir.fileSizes, 0 ≤ s) ∧ v.dir.seen cfg ≤ c.seen cfg
  | .nil, path, r => by simp [Content.census]
  | .file name size rest, path, r => by
    intro h v hv hr
    simp only [Content.fileSizes, List.mem_cons, forall_eq_or_imp] at h
    simp only [Content.census] at hv
    obtain ⟨h1, h2⟩ := content_census_seen_le cfg rest path r h.2 v hv hr
    refine ⟨h1, ?_⟩
    simp only [Content.seen]
    have := h.1
    split <;> omega
  | .subdir name _ d rest, path, r => by
    intro h v hv hr
    simp only [Content.fileSizes, List.mem_append] at h
    have hd : ∀ s ∈ d.fileSizes, 0 ≤ s := fun s hs => h s (Or.inl hs)
    have hrest : ∀ s ∈ rest.fileSizes, 0 ≤ s := fun s hs => h s (Or.inr hs)
    have b1 := (content_seen_bounds cfg rest hrest).1
    have b2 := (dir_seen_bounds cfg d hd).1
    simp only [Content.census, List.mem_append] at hv
    simp only [Content.seen]
    rcases hv with hv | hv
    · obtain ⟨h1, h2⟩ := dir_census_seen_le cfg d _ _ hd v hv hr
      refine ⟨h1, ?_⟩
      have hs : skips cfg name = false := by
        cases hs1 : skips cfg name with
        | false => rfl
        | true =>
          rw [hs1] at hv
          simp only [Bool.not_true, Bool.and_false] at hv
          have := dir_census_unreached cfg d _ v hv
          rw [this] at hr
          simp at hr
      simp only [hs, Bool.false_eq_true, if_false]
      omega
    · obtain ⟨h1, h2⟩ := content_census_seen_le cfg rest path r hrest v hv hr
      refine ⟨h1, ?_⟩
      split <;> omega
end

/-- C18. Non-negative and monotone sizes: for every directory tree whose file
sizes are not negative and whose total is below `2^63`, after a scan that
returns without error, under any configuration, every value in the size table
is not negative, and for every directory `D` of the tree that has an entry and
every directory `C` beneath it that has an entry, the value of `D` is at least
the value of `C`. -/
theorem sizes_monotone (cfg : Config) (root : String) (fs : Dir)
    (hwf : fs.wellFormed = true) (hnn : ∀ s ∈ fs.fileSizes, 0 ≤ s)
    (hfit : fs.fileSizes.sum < 2 ^ 63) (n : Int) (t : Table)
    (hscan : scanDirectory cfg root fs [] = some ((n, none), t)) :
    (∀ k v, mapLookup t k = some v → 0 ≤ v) ∧
      ∀ D ∈ fs.census cfg root true, ∀ C ∈ D.dir.census cfg D.key D.reached,
        (mapLookup t D.key).isSome = true → (mapLookup t C.key).isSome = true →
        mapIndex t C.key ≤ mapIndex t D.key := by
  obtain ⟨_, _, ht⟩ := scanDirectory_no_error cfg fs root [] t n
    (fun _ => dir_named_of_wellFormed fs hwf) hscan
  have htop := dir_seen_bounds cfg fs hnn
  have hval : ∀ w ∈ fs.census cfg root true, ∀ c, w.listing = some c →
      (∀ s ∈ w.dir.fileSizes, 0 ≤ s) ∧ w.dir = .listed c ∧ w.reached = true ∧
        0 ≤ c.seen cfg ∧ wrapInt64 (c.seen cfg) = c.seen cfg := by
    intro w hw c hc
    obtain ⟨hr, hd⟩ := Visit.listing_eq_some.mp hc
    obtain ⟨h1, h2⟩ := dir_census_seen_le cfg fs root true hnn w hw hr
    have h3 := (dir_seen_bounds cfg w.dir h1).1
    rw [hd] at h2 h3
    simp only [Dir.seen] at h2 h3
    exact ⟨h1, hd, hr, h3, wrapInt64_of_range _ (by omega) (by omega)⟩
  have hlook : ∀ w ∈ fs.census cfg root true,
      mapLookup t w.key = (w.listing).map (fun c => wrapInt64 (c.seen cfg)) := by
    intro w hw
    rw [ht]
    exact mapLookup_records cfg fs root hwf w hw
  constructor
  · intro k v hk
    rw [ht] at hk
    rcases mapLookup_assignAll_some _ _ _ _ hk with h | h
    · simp [mapLookup] at h
    · obtain ⟨w, hw, c, hc, _, hv⟩ := (records_mem cfg _ _ _).mp h
      obtain ⟨_, _, _, h0, hwr⟩ := hval w hw c hc
      rw [← hv, hwr]
      exact h0
  · intro D hD C hC hDs hCs
    have hCin : C ∈ fs.census cfg root true := by
      obtain ⟨a, b, hab⟩ := dir_census_segment cfg fs root true D hD
      rw [hab]
      exact List.mem_append_left _ (List.mem_append_right _ hC)
    rw [hlook D hD] at hDs
    rw [hlook C hCin] at hCs
    obtain ⟨cD, hcD⟩ := Option.isSome_iff_exists.mp (by simpa using hDs)
    obtain ⟨cC, hcC⟩ := Option.isSome_iff_exists.mp (by simpa using hCs)
    obtain ⟨hP, hdD, _, _, hwD⟩ := hval D hD cD hcD
    obtain ⟨_, hdC, hrC, _, hwC⟩ := hval C hCin cC hcC
    have hle := (dir_census_seen_le cfg D.dir D.key D.reached hP C hC hrC).2
    rw [hdD, hdC] at hle
    simp only [Dir.seen] at hle
    simp only [mapIndex, hlook D hD, hlook C hCin, hcD, hcC, Option.map_some', Option.getD_some,
      hwD, hwC]
    exact hle

/-- Scenario B: both values of the table are 2,097,152, which is not negative,
and the value of `root` is at least the value of `root/sub`. -/
theorem sizes_monotone_witness :
    scanDirectory plainConfig "root" scenarioB [] =
        some ((2097152, none), [("root/sub", 2097152), ("root", 2097152)]) ∧
      (∀ k v, mapLookup [("root/sub", 2097152), ("root", 2097152)] k = some v → 0 ≤ v) ∧
      mapIndex [("root/sub", 2097152), ("root", 2097152)] "root/sub" ≤
        mapIndex [("root/sub", 2097152), ("root", 2097152)] "root" := by
  have h := sizes_monotone plainConfig "root" scenarioB (by decide) (by decide) (by decide)
    2097152 [("root/sub", 2097152), ("root", 2097152)] (by decide)
  exact ⟨by decide, h.1, h.2 ⟨"root", true, scenarioB⟩
    (List.Mem.tail _ (List.Mem.head _))
    ⟨"root/sub", true, .listed (.file "data" 2097152 .nil)⟩ (List.Mem.head _)
    (by decide) (by decide)⟩

/-! ## Keys beneath a clean root -/

theorem clean_fixed_run (p : String) (h : Clean p = p) (hd : p ≠ ".") :
    p.data ≠ [] ∧ (cleanRun p.data).out ≠ [] ∧ (cleanRun p.data).out.reverse = p.data := by
  unfold Clean at h
  by_cases hp : p = ""
  · rw [if_pos hp] at h
    exact absurd h.symm hd
  · rw [if_neg hp] at h
    simp only at h
    by_cases ho : (cleanRun p.data).out.length = 0
    · rw [if_pos ho] at h
      exact absurd h.symm hd
    · rw [if_neg ho] at h
      refine ⟨fun hnil => hp ((string_eq_empty_iff p).mpr hnil),
        fun hnil => ho (by rw [hnil]; rfl), ?_⟩
      have := congrArg String.data h
      simpa using this

theorem Join_clean (p n : String) (h : Clean p = p) (hd : p ≠ ".") (hn : RealElem n.data) :
    (Join p n).data = p.data ++ (if p = "/" then [] else ['/']) ++ n.data ∧
      Clean (Join p n) = Join p n ∧ Join p n ≠ "." := by
  obtain ⟨hp, hout, hrev⟩ := clean_fixed_run p h hd
  have hN : Normal (isRooted p.data) (cleanRun p.data) := cleanRun_normal _
  have hdata : (Join p n).data = p.data ++ (if p = "/" then [] else ['/']) ++ n.data := by
    rw [Join_data p n hn, cleanStep_real _ _ _ hn]
    simp only
    by_cases hc : ((isRooted p.data && (cleanRun p.data).out.length != 1) ||
        (!isRooted p.data && (cleanRun p.data).out.length != 0)) = true
    · rw [if_pos hc]
      have hne : p ≠ "/" := by
        intro hp1
        subst hp1
        revert hc
        decide
      rw [if_neg hne]
      simp [hrev]
    · rw [if_neg hc]
      have hs := hN.nosep_length hc
      have hp1 : p = "/" := by
        apply string_data_inj
        rw [← hrev, hs]
        cases hr : isRooted p.data with
        | true => rfl
        | false =>
          rw [hs, hr] at hout
          exact absurd rfl hout
      rw [if_pos hp1]
      simp [hrev]
  have hne : (Join p n).data ≠ [] := by
    rw [hdata]
    simp [hn.1]
  refine ⟨hdata, ?_, ?_⟩
  · have hrun := cleanRun_Join p n hn
    have hout2 : (cleanStep (isRooted p.data) (cleanRun p.data) n.data).out ≠ [] :=
      cleanStep_real_out_ne hn
    unfold Clean
    rw [if_neg (fun he => hne ((string_eq_empty_iff _).mp he))]
    simp only [hrun]
    rw [if_neg (fun hl => hout2 (List.length_eq_zero.mp hl))]
    apply string_data_inj
    rw [Join_data p n hn]
  · intro hj
    have hlen : (Join p n).data.length = 1 := by
      rw [hj]
      rfl
    have h1 : 0 < p.data.length := List.length_pos.mpr hp
    have h2 : 0 < n.data.length := List.length_pos.mpr hn.1
    rw [hdata] at hlen
    simp only [List.length_append] at hlen
    omega

theorem stringLess_append (p k : String) (rest : List Char) (hrest : rest ≠ [])
    (h : k.data = p.data ++ rest) : stringLess p k := by
  unfold stringLess
  rw [h]
  cases rest with
  | nil => exact absurd rfl hrest
  | cons a m =>
    generalize p.data = l
    induction l with
    | nil => exact List.Lex.nil
    | cons x xs ih => exact List.Lex.cons ih

theorem Join_clean_less (p n : String) (h : Clean p = p) (hd : p ≠ ".")
    (hn : RealElem n.data) : stringLess p (Join p n) := by
  apply stringLess_append p (Join p n) ((if p = "/" then [] else ['/']) ++ n.data)
  · simp [hn.1]
  · rw [(Join_clean p n h hd hn).1, List.append_assoc]

mutual
theorem dir_named_of_realNames : ∀ d : Dir, d.realNames = true → d.named = true
  | .unreadable _ => by simp [Dir.named]
  | .listed c => by
    intro h
    simp only [Dir.named]
    exact content_named_of_realNames c (by simpa [Dir.realNames] using h)
theorem content_named_of_realNames : ∀ c : Content, c.realNames = true → c.named = true
  | .nil => by simp [Content.named]
  | .file name _ rest => by
    intro h
    simp only [Content.realNames, Bool.and_eq_true, decide_eq_true_eq] at h
    simp [Content.named, h.1.1, content_named_of_realNames rest h.2]
  | .subdir name _ d rest => by
    intro h
    simp only [Content.realNames, Bool.and_eq_true, decide_eq_true_eq] at h
    simp [Content.named, h.1.1.1, content_named_of_realNames rest h.2,
      dir_named_of_realNames d h.1.2]
end

theorem content_children_real :
    ∀ c : Content, c.realNames = true → ∀ p ∈ c.children, RealElem p.1.data
  | .nil => by simp [Content.children]
  | .file name _ rest => by
    intro h p hp
    simp only [Content.realNames, Bool.and_eq_true, decide_eq_true_eq] at h
    simp only [Content.children] at hp
    exact content_children_real rest h.2 p hp
  | .subdir name _ d rest => by
    intro h p hp
    simp only [Content.realNames, Bool.and_eq_true, decide_eq_true_eq] at h
    simp only [Content.children, List.mem_cons] at hp
    rcases hp with hp | hp
    · subst hp
      exact h.1.1
    · exact content_children_real rest h.2 p hp

mutual
theorem dir_census_clean (cfg : Config) :
    ∀ (d : Dir) (path : String) (r : Bool), Clean path = path → path ≠ "." →
      d.realNames = true → ∀ v ∈ d.census cfg path r,
        Clean v.key = v.key ∧ v.key ≠ "." ∧ v.dir.realNames = true ∧
          (v.key = path ∨ stringLess path v.key)
  | .unreadable err, path, r => by
    intro hc hd hn v hv
    simp only [Dir.census, List.mem_singleton] at hv
    subst hv
    exact ⟨hc, hd, hn, Or.inl rfl⟩
  | .listed c, path, r => by
    intro hc hd hn v hv
    simp only [Dir.census, List.mem_append, List.mem_singleton] at hv
    rcases hv with hv | hv
    · obtain ⟨h1, h2, h3, h4⟩ := content_census_clean cfg c path r hc hd
        (by simpa [Dir.realNames] using hn) v hv
      exact ⟨h1, h2, h3, Or.inr h4⟩
    · subst hv
      exact ⟨hc, hd, hn, Or.inl rfl⟩
theorem content_census_clean (cfg : Config) :
    ∀ (c : Content) (path : String) (r : Bool), Clean path = path → path ≠ "." →
      c.realNames = true → ∀ v ∈ c.census cfg path r,
        Clean v.key = v.key ∧ v.key ≠ "." ∧ v.dir.realNames = true ∧ stringLess path v.key
  | .nil, path, r => by simp [Content.census]
  | .file name _ rest, path, r => by
    intro hc hd hn v hv
    simp only [Content.realNames, Bool.and_eq_true, decide_eq_true_eq] at hn
    simp only [Content.census] at hv
    exact content_census_clean cfg rest path r hc hd hn.2 v hv
  | .subdir name _ d rest, path, r => by
    intro hc hd hn v hv
    simp only [Content.realNames, Bool.and_eq_true, decide_eq_true_eq] at hn
    simp only [Content.census, List.mem_append] at hv
    rcases hv with hv | hv
    · obtain ⟨j1, j2, j3⟩ := Join_clean path name hc hd hn.1.1
      have hless := Join_clean_less path name hc hd hn.1.1
      obtain ⟨h1, h2, h3, h4⟩ := dir_census_clean cfg d _ _ j2 j3 hn.1.2 v hv
      refine ⟨h1, h2, h3, ?_⟩
      rcases h4 with h4 | h4
      · rw [h4]
        exact hless
      · exact stringLess_trans hless h4
    · exact content_census_clean cfg rest path r hc hd hn.2 v hv
end

theorem sorted_pair_sublist (l : List String) (hs : l.Pairwise (fun a b => stringLess b a))
    (x y : String) (hx : x ∈ l) (hy : y ∈ l) (hlt : stringLess y x) : [x, y].Sublist l := by
  induction l with
  | nil => simp at hx
  | cons h tl ih =>
    rw [List.pairwise_cons] at hs
    simp only [List.mem_cons] at hx hy
    rcases hx with hx | hx
    · subst hx
      rcases hy with hy | hy
      · subst hy
        exact absurd hlt (stringLess_irrefl _)
      · exact List.Sublist.cons₂ _ (List.singleton_sublist.mpr hy)
    · rcases hy with hy | hy
      · subst hy
        exact absurd (hs.1 x hx) (stringLess_asymm hlt)
      · exact List.Sublist.cons _ (ih hs.2 hx hy)

theorem sorted_least_last (l : List String) (hs : l.Pairwise (fun a b => stringLess b a))
    (x : String) (hx : x ∈ l) (hmin : ∀ y ∈ l, y = x ∨ stringLess x y) :
    ∃ init, l = init ++ [x] := by
  induction l with
  | nil => simp at hx
  | cons h tl ih =>
    rw [List.pairwise_cons] at hs
    cases tl with
    | nil =>
      simp only [List.mem_singleton] at hx
      subst hx
      exact ⟨[], rfl⟩
    | cons h2 tl2 =>
      have hx2 : x ∈ h2 :: tl2 := by
        simp only [List.mem_cons] at hx
        rcases hx with hx | hx
        · subst hx
          have h1 := hs.1 h2 (by simp)
          rcases hmin h2 (by simp) with h3 | h3
          · rw [h3] at h1
            exact absurd h1 (stringLess_irrefl _)
          · exact absurd h1 (stringLess_asymm h3)
        · simpa using hx
      obtain ⟨init, hinit⟩ := ih hs.2 hx2 (fun y hy => hmin y (List.mem_cons_of_mem _ hy))
      exact ⟨h :: init, by rw [hinit]; rfl⟩

theorem mapAssign_keys_nodup (t : Table) (k : String) (v : Int) (h : (mapKeys t).Nodup) :
    (mapKeys (mapAssign t k v)).Nodup := by
  rw [mapKeys_mapAssign]
  split
  · exact h
  · rename_i hk
    rw [List.nodup_append]
    exact ⟨h, by simp, by
      intro a ha hb
      simp only [List.mem_singleton] at hb
      exact hk (hb ▸ ha)⟩

theorem assignAll_keys_nodup (l : List (String × Int)) (t : Table) (h : (mapKeys t).Nodup) :
    (mapKeys (assignAll t l)).Nodup := by
  induction l generalizing t with
  | nil => exact h
  | cons p rest ih =>
    have hstep : assignAll t (p :: rest) = assignAll (mapAssign t p.1 p.2) rest := rfl
    rw [hstep]
    exact ih _ (mapAssign_keys_nodup t p.1 p.2 h)

/-- C20, as stated, fails: for the root `/`, which is in the normal form of
`path.Clean`, the subdirectory `a` is recorded under `/a`, and `/a` does not
start with the key of its parent followed by a separator, which would be
`//`. -/
theorem child_key_counterexample :
    Clean "/" = "/" ∧ oneSubdir.realNames = true ∧
      scanDirectory plainConfig "/" oneSubdir [] = some ((0, none), [("/a", 0), ("/", 0)]) ∧
      Join "/" "a" = "/a" ∧ beneath "/a" "/" = false := by
  refine ⟨by decide, by decide, by decide, by decide, by decide⟩

/-- C20, amended. Children are listed before their parents: in listing mode,
for a tree whose entry names are not empty, have no slash and are neither `.`
nor `..`, and a root path in the normal form of `path.Clean` other than `.`,
after a scan without error the key of a subdirectory is the key of its parent,
then a separator unless the key of the parent is `/`, then its name; it is
therefore greater than the key of the parent, and when both have a line, the
line of the subdirectory comes before the line of the parent.  The line of the
root, when it has one, is the last line of the listing. -/
theorem children_first (cfg : Config) (root : String) (fs : Dir) (ranged : List String)
    (n : Int) (t : Table) (hclean : Clean root = root) (hdot : root ≠ ".")
    (hnames : fs.realNames = true)
    (hscan : scanDirectory cfg root fs [] = some ((n, none), t))
    (hperm : ranged.Perm (mapKeys t)) :
    ∃ width : Nat,
      (∀ v ∈ fs.census cfg root true, ∀ c, v.dir = .listed c → ∀ p ∈ c.children,
        v.key ∈ mapKeys t → Join v.key p.1 ∈ mapKeys t →
          Join v.key p.1 = v.key ++ (if v.key = "/" then "" else "/") ++ p.1 ∧
          stringLess v.key (Join v.key p.1) ∧
          [lenStr width (Join v.key p.1) (fmtMegs cfg (mapIndex t (Join v.key p.1))),
            lenStr width v.key (fmtMegs cfg (mapIndex t v.key))].Sublist
              (listing cfg t ranged)) ∧
      (root ∈ mapKeys t →
        ∃ init, listing cfg t ranged =
          init ++ [lenStr width root (fmtMegs cfg (mapIndex t root))]) := by
  obtain ⟨_, _, ht⟩ := scanDirectory_no_error cfg fs root [] t n
    (fun _ => dir_named_of_realNames fs hnames) hscan
  have hnd : (mapKeys t).Nodup := by
    rw [ht]
    exact assignAll_keys_nodup _ [] (by simp [mapKeys])
  have hsorted : (sortReverse ranged).Pairwise (fun a b => stringLess b a) :=
    sortReverse_strict ranged (hperm.nodup_iff.mpr hnd)
  have hmem : ∀ k, k ∈ mapKeys t → k ∈ sortReverse ranged := fun k hk =>
    (sortReverse_perm ranged).symm.subset (hperm.symm.subset hk)
  have hlist : listing cfg t ranged = (sortReverse ranged).map (fun p =>
      lenStr ((if !cfg.Align then 0 else (collectPaths ranged).2) + 1) p
        (fmtMegs cfg (mapIndex t p))) := by
    simp [listing, collectPaths_fst]
  refine ⟨(if !cfg.Align then 0 else (collectPaths ranged).2) + 1, ?_, ?_⟩
  · intro v hv c hc p hp hvk hck
    obtain ⟨h1, h2, h3, _⟩ := dir_census_clean cfg fs root true hclean hdot hnames v hv
    rw [hc] at h3
    have hreal := content_children_real c (by simpa [Dir.realNames] using h3) p hp
    obtain ⟨j1, _, _⟩ := Join_clean v.key p.1 h1 h2 hreal
    have hless := Join_clean_less v.key p.1 h1 h2 hreal
    refine ⟨?_, hless, ?_⟩
    · apply string_data_inj
      rw [j1]
      by_cases hroot : v.key = "/"
      · simp [hroot, String.data_append]
      · simp only [if_neg hroot, String.data_append]
    · rw [hlist]
      have hsub := (sorted_pair_sublist _ hsorted _ _ (hmem _ hck) (hmem _ hvk) hless).map
        (fun p => lenStr ((if !cfg.Align then 0 else (collectPaths ranged).2) + 1) p
          (fmtMegs cfg (mapIndex t p)))
      simpa using hsub
  · intro hroot
    have hmin : ∀ y ∈ sortReverse ranged, y = root ∨ stringLess root y := by
      intro y hy
      have hyk : y ∈ mapKeys t := hperm.subset ((sortReverse_perm ranged).subset hy)
      rcases scanDirectory_keys cfg fs root [] _ t hscan y hyk with h | ⟨v, hv, _, hvk⟩
      · simp [mapKeys] at h
      · obtain ⟨_, _, _, h4⟩ := dir_census_clean cfg fs root true hclean hdot hnames v hv
        rw [hvk] at h4
        exact h4
    obtain ⟨init, hinit⟩ := sorted_least_last _ hsorted root (hmem _ hroot) hmin
    refine ⟨init.map (fun p =>
      lenStr ((if !cfg.Align then 0 else (collectPaths ranged).2) + 1) p
        (fmtMegs cfg (mapIndex t p))), ?_⟩
    rw [hlist, hinit]
    simp

/-- Scenario B with the root path `root`: the subdirectory is keyed `root/sub`,
its line comes first and the line of the root is the last one. -/
theorem children_first_witness :
    listing alignConfig [("root/sub", 2097152), ("root", 2097152)] ["root/sub", "root"] =
        ["root/sub  --     2.00 MB\n", "root      --     2.00 MB\n"] ∧
      ∃ width : Nat,
        (Join "root" "sub" = "root" ++ (if "root" = "/" then "" else "/") ++ "sub" ∧
          stringLess "root" (Join "root" "sub") ∧
          [lenStr width (Join "root" "sub") (fmtMegs alignConfig
              (mapIndex [("root/sub", 2097152), ("root", 2097152)] (Join "root" "sub"))),
            lenStr width "root" (fmtMegs alignConfig
              (mapIndex [("root/sub", 2097152), ("root", 2097152)] "root"))].Sublist
            (listing alignConfig [("root/sub", 2097152), ("root", 2097152)]
              ["root/sub", "root"])) ∧
        ∃ init, listing alignConfig [("root/sub", 2097152), ("root", 2097152)]
            ["root/sub", "root"] =
          init ++ [lenStr width "root" (fmtMegs alignConfig
            (mapIndex [("root/sub", 2097152), ("root", 2097152)] "root"))] := by
  refine ⟨by decide, ?_⟩
  obtain ⟨w, h1, h2⟩ := children_first alignConfig "root" scenarioB ["root/sub", "root"]
    2097152 [("root/sub", 2097152), ("root", 2097152)] (by decide) (by decide) (by decide)
    (by decide) (by decide)
  exact ⟨w, h1 ⟨"root", true, scenarioB⟩ (List.Mem.tail _ (List.Mem.head _))
    (.subdir "sub" 4096 (.listed (.file "data" 2097152 .nil)) .nil) rfl
    ("sub", .listed (.file "data" 2097152 .nil)) (List.Mem.head _) (by decide) (by decide),
    h2 (by decide)⟩

end Dirsize
